import Mathlib

/-!
Verification development for the `sched_sim_rust` scheduling simulator.

The Rust sources under `src/lib` and the per-paper entry points are shallowly
embedded here: `NodeData` / DAG graphs, the global-EDF ready ordering
(`NodeDataWrapper` in `src/lib/src/global_edf_scheduler.rs`), the tick-driven
set-scheduler loop, the intra-DAG list scheduler
(`src/lib/src/scheduler.rs`), the fixed-priority ready-queue sort
(`src/lib/src/fixed_priority_scheduler.rs`), deadline normalization
(`src/lib/src/util.rs`), the federated feasibility analysis, and the dynfed
core-minimization loop (`src/2021_RTCSA_dynfed/src/dynfed.rs`).

Machine integers (`i32`) are modelled as `Int`; none of the verified
properties exercises values near the `i32` overflow boundary.  `BTreeMap`
parameter maps are modelled as association lists with overwrite-on-insert,
and `BTreeSet` ready sets as lists kept sorted by the embedded comparator
(`pop_first` pops the head, i.e. the minimum).  Rust panics are modelled by
`Option`-valued functions returning `none`.
-/

namespace SchedSim

/-! ### NodeData and parameter maps -/

/-- Parameter map of a node (`BTreeMap<String, i32>` in the source),
modelled as an association list; `paramInsert` overwrites. -/
abbrev Params := List (String × Int)

/-- Overwriting insertion, mirroring `BTreeMap::insert`. -/
def paramInsert (k : String) (v : Int) (ps : Params) : Params :=
  (k, v) :: ps.filter (fun p => p.1 ≠ k)

/-- `NodeData { id: i32, params: BTreeMap<String,i32> }` from
`graph_extension.rs`. -/
structure NodeData where
  id : Int
  params : Params
deriving DecidableEq, Repr

/-- `params.get(key)` on a node. -/
def NodeData.get (n : NodeData) (k : String) : Option Int :=
  n.params.lookup k

/-- Model of `i32::cmp`. -/
def cmpInt (a b : Int) : Ordering :=
  if a < b then .lt else if a = b then .eq else .gt

/-- Comparison of two optional parameter values as in
`NodeDataWrapper::partial_cmp` (`global_edf_scheduler.rs:31-64`): both
present compares the values, both absent is `Equal`, and the side holding
the key is `Greater`. -/
def cmpOpt (a b : Option Int) : Ordering :=
  match a, b with
  | some x, some y => cmpInt x y
  | none, none => .eq
  | some _, none => .gt
  | none, some _ => .lt

/-- The `dag_id` tie-break step of `NodeDataWrapper::partial_cmp`. -/
def cmpDagId (a b : NodeData) : Ordering :=
  cmpOpt (a.get "dag_id") (b.get "dag_id")

/-- `NodeDataWrapper::partial_cmp` (`global_edf_scheduler.rs:26-66`),
which always returns `Some`, so it is also `Ord::cmp`.  Primary key
`"period"` (a missing period on one side alone makes the other side
smaller), then `id`, then `"dag_id"`. -/
def nodeCmp (a b : NodeData) : Ordering :=
  match a.get "period", b.get "period" with
  | some x, some y =>
    match cmpInt x y with
    | .eq =>
      match cmpInt a.id b.id with
      | .eq => cmpDagId a b
      | o => o
    | o => o
  | none, none =>
    match cmpInt a.id b.id with
    | .eq => cmpDagId a b
    | o => o
  | some _, none => .gt
  | none, some _ => .lt

/-! ### The global-EDF ready set

`BTreeSet<NodeDataWrapper>` is modelled as a list kept sorted ascending by
`nodeCmp`; `BTreeSet::insert` keeps the existing element when an `Equal`
one is present, and `pop_first` removes the minimum, i.e. the head. -/

/-- `BTreeSet::insert` on the sorted-list model. -/
def rqInsert (x : NodeData) : List NodeData → List NodeData
  | [] => [x]
  | y :: l =>
    match nodeCmp x y with
    | .lt => x :: y :: l
    | .eq => y :: l
    | .gt => y :: rqInsert x l

/-- `BTreeSet::pop_first` on the sorted-list model. -/
def rqPop : List NodeData → Option (NodeData × List NodeData)
  | [] => none
  | x :: l => some (x, l)

/-! ### Ordering helper lemmas -/

theorem cmpInt_eq_iff {a b : Int} : cmpInt a b = .eq ↔ a = b := by
  unfold cmpInt; split <;> rename_i h
  · simp; omega
  · split <;> simp_all
theorem cmpInt_lt_iff {a b : Int} : cmpInt a b = .lt ↔ a < b := by
  unfold cmpInt; split <;> rename_i h
  · simp [h]
  · split <;> simp <;> omega

theorem cmpInt_swap (a b : Int) : cmpInt b a = (cmpInt a b).swap := by
  unfold cmpInt; split <;> rename_i h
  · rw [if_neg (by omega), if_neg (by omega)]; rfl
  · split <;> rename_i h2
    · subst h2; rw [if_neg (by omega), if_pos rfl]; rfl
    · rw [if_pos (by omega)]; rfl

theorem cmpInt_trans {a b c : Int} (h1 : cmpInt a b = .lt) (h2 : cmpInt b c = .lt) :
    cmpInt a c = .lt := by
  rw [cmpInt_lt_iff] at h1 h2 ⊢; omega

theorem cmpOpt_eq_iff {a b : Option Int} : cmpOpt a b = .eq ↔ a = b := by
  cases a <;> cases b <;> simp [cmpOpt, cmpInt_eq_iff]

theorem cmpOpt_swap (a b : Option Int) : cmpOpt b a = (cmpOpt a b).swap := by
  cases a <;> cases b <;> simp only [cmpOpt] <;> first
    | rfl
    | exact cmpInt_swap _ _

theorem cmpOpt_trans {a b c : Option Int} (h1 : cmpOpt a b = .lt) (h2 : cmpOpt b c = .lt) :
    cmpOpt a c = .lt := by
  cases a <;> cases b <;> cases c <;> simp_all [cmpOpt]
  exact cmpInt_trans h1 h2

/-- `nodeCmp` is the lexicographic composition of the period, id and
`dag_id` comparison steps. -/
theorem nodeCmp_eq_then (a b : NodeData) :
    nodeCmp a b =
      (cmpOpt (a.get "period") (b.get "period")).then
        ((cmpInt a.id b.id).then (cmpDagId a b)) := by
  unfold nodeCmp cmpOpt Ordering.then
  cases a.get "period" <;> cases b.get "period" <;> simp
  · cases cmpInt a.id b.id <;> simp
  · rename_i x y
    cases cmpInt x y <;> simp
    cases cmpInt a.id b.id <;> simp

theorem Ordering_then_swap (o₁ o₂ : Ordering) :
    (o₁.then o₂).swap = o₁.swap.then o₂.swap := by
  cases o₁ <;> cases o₂ <;> rfl

theorem Ordering_then_eq_eq {o₁ o₂ : Ordering} :
    o₁.then o₂ = .eq ↔ o₁ = .eq ∧ o₂ = .eq := by
  cases o₁ <;> cases o₂ <;> simp [Ordering.then]

theorem then_lt_iff {o₁ o₂ : Ordering} :
    o₁.then o₂ = .lt ↔ (o₁ = .lt ∨ (o₁ = .eq ∧ o₂ = .lt)) := by
  cases o₁ <;> simp [Ordering.then]

theorem then_lt_cases {o₁ o₂ : Ordering} (h : o₁.then o₂ = .lt) :
    o₁ = .lt ∨ (o₁ = .eq ∧ o₂ = .lt) := then_lt_iff.mp h

theorem then_lt_of_lt {o₁ o₂ : Ordering} (h : o₁ = .lt) : o₁.then o₂ = .lt := by
  rw [h]; cases o₂ <;> rfl

theorem then_lt_of_eq {o₁ o₂ : Ordering} (h : o₁ = .eq) (h2 : o₂ = .lt) :
    o₁.then o₂ = .lt := by
  rw [h, h2]; rfl

theorem nodeCmp_swap (a b : NodeData) : nodeCmp b a = (nodeCmp a b).swap := by
  rw [nodeCmp_eq_then b a, nodeCmp_eq_then a b]
  simp only [cmpDagId]
  rw [cmpOpt_swap (a.get "period") (b.get "period"), cmpInt_swap a.id b.id,
    cmpOpt_swap (a.get "dag_id") (b.get "dag_id"), Ordering_then_swap, Ordering_then_swap]

theorem nodeCmp_trans {a b c : NodeData}
    (h1 : nodeCmp a b = .lt) (h2 : nodeCmp b c = .lt) : nodeCmp a c = .lt := by
  rw [nodeCmp_eq_then] at h1 h2 ⊢
  rcases then_lt_cases h1 with hp1 | ⟨hp1, h1i⟩ <;>
    rcases then_lt_cases h2 with hp2 | ⟨hp2, h2i⟩
  · exact then_lt_of_lt (cmpOpt_trans hp1 hp2)
  · rw [cmpOpt_eq_iff] at hp2
    exact then_lt_of_lt (by rw [← hp2]; exact hp1)
  · rw [cmpOpt_eq_iff] at hp1
    exact then_lt_of_lt (by rw [hp1]; exact hp2)
  · rw [cmpOpt_eq_iff] at hp1 hp2
    refine then_lt_of_eq (by rw [cmpOpt_eq_iff, hp1, hp2]) ?_
    rcases then_lt_cases h1i with hi1 | ⟨hi1, hd1⟩ <;>
      rcases then_lt_cases h2i with hi2 | ⟨hi2, hd2⟩
    · exact then_lt_of_lt (cmpInt_trans hi1 hi2)
    · rw [cmpInt_eq_iff] at hi2
      exact then_lt_of_lt (by rw [← hi2]; exact hi1)
    · rw [cmpInt_eq_iff] at hi1
      exact then_lt_of_lt (by rw [hi1]; exact hi2)
    · rw [cmpInt_eq_iff] at hi1 hi2
      refine then_lt_of_eq (by rw [cmpInt_eq_iff, hi1, hi2]) ?_
      simp only [cmpDagId] at hd1 hd2 ⊢
      exact cmpOpt_trans hd1 hd2

theorem nodeCmp_gt_of_some_none {a b : NodeData} {p : Int}
    (ha : a.get "period" = some p) (hb : b.get "period" = none) :
    nodeCmp a b = .gt := by
  unfold nodeCmp; rw [ha, hb]

theorem nodeCmp_lt_of_none_some {a b : NodeData} {p : Int}
    (ha : a.get "period" = none) (hb : b.get "period" = some p) :
    nodeCmp a b = .lt := by
  unfold nodeCmp; rw [ha, hb]

/-- If `a` compares below `b`, then in a two-element ready set built from
them `a` is popped first, whatever the order of insertion. -/
theorem rqPop_two_of_lt {a b : NodeData} (h : nodeCmp a b = .lt) :
    rqPop (rqInsert b (rqInsert a [])) = some (a, [b]) ∧
      rqPop (rqInsert a (rqInsert b [])) = some (a, [b]) := by
  have hba : nodeCmp b a = .gt := by rw [nodeCmp_swap, h]; rfl
  constructor
  · simp [rqInsert, hba, rqPop]
  · simp [rqInsert, h, rqPop]

/-! Concrete nodes used by the C1 counterexample: `nodeWithPeriod` carries
a `period` parameter, `nodeNoPeriod` does not. -/

def nodeWithPeriod : NodeData := ⟨0, [("execution_time", 1), ("period", 5)]⟩

def nodeNoPeriod : NodeData := ⟨1, [("execution_time", 1)]⟩

/-- C1 (counterexample).  The claim says the ready node carrying `period`
is popped from the global-EDF ready set before the node lacking `period`.
At the concrete pair `nodeWithPeriod` / `nodeNoPeriod`, the comparator of
`NodeDataWrapper` makes the period-carrying node `Greater`, and
`pop_first` (which removes the minimum) returns the period-less node
first under either insertion order. -/
theorem claim1_counterexample :
    nodeCmp nodeWithPeriod nodeNoPeriod = .gt ∧
      rqPop (rqInsert nodeWithPeriod (rqInsert nodeNoPeriod [])) =
        some (nodeNoPeriod, [nodeWithPeriod]) ∧
      rqPop (rqInsert nodeNoPeriod (rqInsert nodeWithPeriod [])) =
        some (nodeNoPeriod, [nodeWithPeriod]) := by
  refine ⟨by decide, by decide, by decide⟩

/-- C1 (amended).  In the global-EDF ready ordering of
`NodeDataWrapper::partial_cmp`, for two ready nodes where exactly one has
a `period` parameter the node lacking `period` is the smaller element,
so it is popped from the ready set first; the node with `period` present
is lower priority. -/
theorem claim1_missing_period_ranks_first {a b : NodeData} {p : Int}
    (ha : a.get "period" = some p) (hb : b.get "period" = none) :
    nodeCmp a b = .gt ∧ nodeCmp b a = .lt ∧
      rqPop (rqInsert a (rqInsert b [])) = some (b, [a]) ∧
      rqPop (rqInsert b (rqInsert a [])) = some (b, [a]) := by
  have h := nodeCmp_lt_of_none_some hb ha
  have h2 := rqPop_two_of_lt h
  exact ⟨nodeCmp_gt_of_some_none ha hb, h, h2.1, h2.2⟩

/-- C1 witness: the amended statement evaluated at the concrete pair. -/
theorem claim1_missing_period_ranks_first_witness :
    nodeCmp nodeWithPeriod nodeNoPeriod = .gt ∧
      nodeCmp nodeNoPeriod nodeWithPeriod = .lt ∧
      rqPop (rqInsert nodeWithPeriod (rqInsert nodeNoPeriod [])) =
        some (nodeNoPeriod, [nodeWithPeriod]) ∧
      rqPop (rqInsert nodeNoPeriod (rqInsert nodeWithPeriod [])) =
        some (nodeNoPeriod, [nodeWithPeriod]) :=
  claim1_missing_period_ranks_first (p := 5) (by decide) (by decide)

/-- C2.  The global-EDF comparator dispatches two period-carrying nodes in
ascending lexicographic `(period, node_id, dag_id)` order and two
period-less nodes in ascending `(node_id, dag_id)` order; it is
asymmetric and transitive, never `Equal` on nodes with distinct
`(node_id, dag_id)`, and the smaller node is popped first. -/
theorem claim2_ready_order :
    (∀ a b pa pb da db, a.get "period" = some pa → b.get "period" = some pb →
      a.get "dag_id" = some da → b.get "dag_id" = some db →
      (nodeCmp a b = .lt ↔
        (pa < pb ∨ (pa = pb ∧ (a.id < b.id ∨ (a.id = b.id ∧ da < db)))))) ∧
    (∀ a b da db, a.get "period" = none → b.get "period" = none →
      a.get "dag_id" = some da → b.get "dag_id" = some db →
      (nodeCmp a b = .lt ↔ (a.id < b.id ∨ (a.id = b.id ∧ da < db)))) ∧
    (∀ a b, nodeCmp b a = (nodeCmp a b).swap) ∧
    (∀ a b c, nodeCmp a b = .lt → nodeCmp b c = .lt → nodeCmp a c = .lt) ∧
    (∀ a b da db, a.get "dag_id" = some da → b.get "dag_id" = some db →
      (a.id, da) ≠ (b.id, db) → nodeCmp a b ≠ .eq) ∧
    (∀ a b, nodeCmp a b = .lt →
      rqPop (rqInsert b (rqInsert a [])) = some (a, [b]) ∧
        rqPop (rqInsert a (rqInsert b [])) = some (a, [b])) := by
  refine ⟨?_, ?_, nodeCmp_swap, fun a b c => nodeCmp_trans, ?_, fun a b => rqPop_two_of_lt⟩
  · intro a b pa pb da db hpa hpb hda hdb
    rw [nodeCmp_eq_then]
    simp only [hpa, hpb, cmpDagId, hda, hdb, cmpOpt]
    rw [then_lt_iff, then_lt_iff, cmpInt_lt_iff, cmpInt_eq_iff, cmpInt_lt_iff,
      cmpInt_eq_iff, cmpInt_lt_iff]
  · intro a b da db hpa hpb hda hdb
    rw [nodeCmp_eq_then]
    simp only [hpa, hpb, cmpDagId, hda, hdb, cmpOpt]
    rw [then_lt_iff, then_lt_iff, cmpInt_lt_iff, cmpInt_eq_iff, cmpInt_lt_iff]
    simp [Ordering.then]
  · intro a b da db hda hdb hne h
    rw [nodeCmp_eq_then] at h
    rw [Ordering_then_eq_eq] at h
    obtain ⟨-, h⟩ := h
    rw [Ordering_then_eq_eq] at h
    obtain ⟨h1, h2⟩ := h
    rw [cmpInt_eq_iff] at h1
    rw [cmpDagId, hda, hdb] at h2
    simp only [cmpOpt] at h2
    rw [cmpInt_eq_iff] at h2
    exact hne (by rw [h1, h2])

/-- C2 witness: the characterization evaluated on two concrete
period-carrying nodes with distinct periods. -/
theorem claim2_ready_order_witness :
    nodeCmp ⟨0, [("period", 3), ("dag_id", 1)]⟩ ⟨1, [("period", 7), ("dag_id", 0)]⟩ = .lt ↔
      ((3 : Int) < 7 ∨ ((3 : Int) = 7 ∧ ((0 : Int) < 1 ∨ ((0 : Int) = 1 ∧ (1 : Int) < 0)))) :=
  claim2_ready_order.1 ⟨0, [("period", 3), ("dag_id", 1)]⟩ ⟨1, [("period", 7), ("dag_id", 0)]⟩
    3 7 1 0 (by decide) (by decide) (by decide) (by decide)

/-! ### DAG graphs

`petgraph::Graph<NodeData, i32>` with vertices addressed by insertion
index (`NodeIndex`).  Edge weights are dependency markers only and are
dropped. -/

structure DAGGraph where
  nodes : List NodeData
  edges : List (Nat × Nat)
deriving DecidableEq, Repr

/-- Indexing `dag[node_index]`. -/
def DAGGraph.node (d : DAGGraph) (i : Nat) : NodeData :=
  d.nodes.getD i ⟨0, []⟩

/-! ### Fixed-priority ready-queue sort
(`src/lib/src/fixed_priority_scheduler.rs:81-91`) -/

/-- The sort key of `FixedPriorityScheduler::sort_ready_queue`: the node's
`priority` parameter, or the default `999` (logged as a warning) when the
parameter is missing. -/
def priorityKey (d : DAGGraph) (i : Nat) : Int :=
  ((d.node i).get "priority").getD 999

/-- One insertion step of a stable sort: `x` goes after every element
with key less than or equal to its own. -/
def stableInsert (key : α → Int) (x : α) : List α → List α
  | [] => [x]
  | y :: l => if key y ≤ key x then y :: stableInsert key x l else x :: y :: l

/-- Model of the stable `sort_by_key` of Rust slices: left-to-right
insertion keeps equal-key elements in their original order. -/
def stableSortByKey (key : α → Int) (l : List α) : List α :=
  l.foldl (fun acc x => stableInsert key x acc) []

/-- `FixedPriorityScheduler::sort_ready_queue`: the ready queue of node
indices sorted ascending by `priorityKey`. -/
def sortReadyQueue (d : DAGGraph) (rq : List Nat) : List Nat :=
  stableSortByKey (priorityKey d) rq

theorem stableInsert_perm (key : α → Int) (x : α) (l : List α) :
    (stableInsert key x l).Perm (x :: l) := by
  induction l with
  | nil => exact List.Perm.refl _
  | cons y l ih =>
    unfold stableInsert
    split
    · exact ((ih.cons y).trans (List.Perm.swap x y l))
    · exact List.Perm.refl _

theorem stableInsert_sorted (key : α → Int) (x : α) (l : List α)
    (h : l.Pairwise (fun a b => key a ≤ key b)) :
    (stableInsert key x l).Pairwise (fun a b => key a ≤ key b) := by
  induction l with
  | nil => simp [stableInsert]
  | cons y l ih =>
    rw [List.pairwise_cons] at h
    unfold stableInsert
    split <;> rename_i hle
    · rw [List.pairwise_cons]
      refine ⟨?_, ih h.2⟩
      intro z hz
      have hz2 := (stableInsert_perm key x l).mem_iff.mp hz
      rcases List.mem_cons.mp hz2 with rfl | hz3
      · exact hle
      · exact h.1 z hz3
    · rw [List.pairwise_cons]
      refine ⟨?_, List.pairwise_cons.mpr h⟩
      intro z hz
      rcases List.mem_cons.mp hz with rfl | hz2
      · omega
      · have := h.1 z hz2; omega

theorem stableSortByKey_perm (key : α → Int) (l : List α) :
    (stableSortByKey key l).Perm l := by
  suffices h : ∀ acc : List α,
      (l.foldl (fun acc x => stableInsert key x acc) acc).Perm (acc ++ l) by
    simpa using h []
  induction l with
  | nil => intro acc; simp
  | cons x l ih =>
    intro acc
    simp only [List.foldl_cons]
    refine (ih (stableInsert key x acc)).trans ?_
    have h1 : (stableInsert key x acc ++ l).Perm ((x :: acc) ++ l) :=
      (stableInsert_perm key x acc).append_right l
    refine h1.trans ?_
    simp only [List.cons_append]
    exact (List.perm_middle).symm

theorem stableSortByKey_sorted (key : α → Int) (l : List α) :
    (stableSortByKey key l).Pairwise (fun a b => key a ≤ key b) := by
  suffices h : ∀ acc : List α, acc.Pairwise (fun a b => key a ≤ key b) →
      (l.foldl (fun acc x => stableInsert key x acc) acc).Pairwise
        (fun a b => key a ≤ key b) by
    exact h [] (by simp)
  induction l with
  | nil => intro acc hacc; simpa using hacc
  | cons x l ih =>
    intro acc hacc
    simp only [List.foldl_cons]
    exact ih _ (stableInsert_sorted key x acc hacc)

/-- C7.  `FixedPriorityScheduler::sort_ready_queue` permutes the ready
queue into ascending order of the integer `priority` parameter, treating
a missing `priority` as `999`, so a node with missing `priority` is never
placed before a node whose priority is below `999`. -/
theorem claim7_fixed_priority_sort (d : DAGGraph) (rq : List Nat) :
    (sortReadyQueue d rq).Perm rq ∧
    (sortReadyQueue d rq).Pairwise (fun a b => priorityKey d a ≤ priorityKey d b) ∧
    (∀ i, (d.node i).get "priority" = none → priorityKey d i = 999) ∧
    (∀ (i j : Fin (sortReadyQueue d rq).length), i < j →
      (d.node ((sortReadyQueue d rq).get i)).get "priority" = none →
      ¬ priorityKey d ((sortReadyQueue d rq).get j) < 999) := by
  refine ⟨stableSortByKey_perm _ rq, stableSortByKey_sorted _ rq, ?_, ?_⟩
  · intro i h; simp [priorityKey, h]
  · intro i j hij hnone
    have hs := stableSortByKey_sorted (priorityKey d) rq
    rw [List.pairwise_iff_get] at hs
    have hle : priorityKey d ((sortReadyQueue d rq).get i) ≤
        priorityKey d ((sortReadyQueue d rq).get j) := hs i j hij
    have h999 : priorityKey d ((sortReadyQueue d rq).get i) = 999 := by
      unfold priorityKey
      rw [hnone]
      rfl
    omega

/-- C7 witness: on a concrete DAG whose node 2 lacks `priority`, the
missing-priority default evaluates to `999` and the sorted queue places
node 2 last. -/
theorem claim7_fixed_priority_sort_witness :
    priorityKey ⟨[⟨0, [("priority", 7)]⟩, ⟨1, [("priority", 3)]⟩, ⟨2, []⟩], []⟩ 2 = 999 ∧
    sortReadyQueue ⟨[⟨0, [("priority", 7)]⟩, ⟨1, [("priority", 3)]⟩, ⟨2, []⟩], []⟩
      [2, 0, 1] = [1, 0, 2] :=
  ⟨(claim7_fixed_priority_sort
      ⟨[⟨0, [("priority", 7)]⟩, ⟨1, [("priority", 3)]⟩, ⟨2, []⟩], []⟩ [2, 0, 1]).2.2.1
      2 (by decide),
    by decide⟩

/-! ### Graph accessors

`graph_extension.rs` is not under `src/`; these accessors are modelled
from the spec (§3, §4.1). -/

/-- Value of `key` on the first node carrying it, scanning in insertion
order. -/
def firstParam (key : String) (l : List NodeData) : Option Int :=
  (l.find? (fun n => (n.get key).isSome)).bind (fun n => n.get key)

/-- Modelled from the spec: `get_head_period` of the missing
`graph_extension.rs` — the `period` attribute of the unique node
designated as period-bearing (§3), here the first node carrying
`period`. -/
def DAGGraph.getHeadPeriod (d : DAGGraph) : Option Int :=
  firstParam "period" d.nodes

/-- Modelled from the spec: `get_end_to_end_deadline` of the missing
`graph_extension.rs` — the deadline attribute, living on a sink (§3). -/
def DAGGraph.getEndToEndDeadline (d : DAGGraph) : Option Int :=
  firstParam "end_to_end_deadline" d.nodes

/-- Modelled from the spec: `get_head_offset` — the `offset` attribute of
the period-bearing node, default `0` (§3). -/
def DAGGraph.getHeadOffset (d : DAGGraph) : Int :=
  ((d.nodes.find? (fun n => (n.get "period").isSome)).bind
    (fun n => n.get "offset")).getD 0

/-- Replacement of the element at one index, mirroring in-place node
mutation through `petgraph` indexing. -/
def listModify (i : Nat) (f : α → α) : List α → List α
  | [] => []
  | x :: l =>
    match i with
    | 0 => f x :: l
    | i + 1 => x :: listModify i f l

/-- `add_param(dag, node_i, key, value)`: `BTreeMap::insert` on one
node's parameter map. -/
def DAGGraph.addParam (d : DAGGraph) (i : Nat) (k : String) (v : Int) : DAGGraph :=
  { d with nodes :=
      listModify i (fun n => { n with params := paramInsert k v n.params }) d.nodes }

/-- `update_param`: overwriting an existing key has the same effect as
`BTreeMap::insert` in the model. -/
def DAGGraph.updateParam (d : DAGGraph) (i : Nat) (k : String) (v : Int) : DAGGraph :=
  d.addParam i k v

/-- `i` is a sink: no outgoing edge. -/
def DAGGraph.isSink (d : DAGGraph) (i : Nat) : Bool :=
  d.edges.all (fun e => e.1 ≠ i)

/-- Modelled from the spec: `get_sink_nodes` — nodes with out-degree 0,
ordered by node id (§4.1). -/
def DAGGraph.getSinkNodes (d : DAGGraph) : List Nat :=
  stableSortByKey (fun i => (d.node i).id)
    ((List.range d.nodes.length).filter (fun i => d.isSink i))

/-- `i` is a source: no incoming edge. -/
def DAGGraph.isSource (d : DAGGraph) (i : Nat) : Bool :=
  d.edges.all (fun e => e.2 ≠ i)

/-- Modelled from the spec: `get_source_nodes` — nodes with in-degree 0,
ordered by node id (§4.1). -/
def DAGGraph.getSourceNodes (d : DAGGraph) : List Nat :=
  stableSortByKey (fun i => (d.node i).id)
    ((List.range d.nodes.length).filter (fun i => d.isSource i))

/-! ### Deadline normalization (`src/lib/src/util.rs:16-57`) -/

/-- `enforce_equal_period_and_deadline` (`util.rs:43-57`): when they
differ, the deadline on the first sink carrying one is overridden by the
period (with a warning, not modelled); the `.unwrap()` on a missing
deadline-carrying sink is modelled by `none`. -/
def enforceEqualPeriodAndDeadline (d : DAGGraph) (period dl : Int) : Option DAGGraph :=
  if dl ≠ period then
    match d.getSinkNodes.find?
        (fun i => ((d.node i).get "end_to_end_deadline").isSome) with
    | some i => some (d.updateParam i "end_to_end_deadline" period)
    | none => none
  else
    some d

/-- The per-DAG step of `adjust_to_implicit_deadline` (`util.rs:16-41`);
the `(None, None)` panic is modelled by `none`. -/
def adjustOne (d : DAGGraph) : Option DAGGraph :=
  match d.getHeadPeriod, d.getEndToEndDeadline with
  | some p, some dl => enforceEqualPeriodAndDeadline d p dl
  | none, some dl => some (d.addParam 0 "period" dl)
  | some p, none => some (d.addParam (d.nodes.length - 1) "end_to_end_deadline" p)
  | none, none => none

/-- `adjust_to_implicit_deadline` over a DAG set, processed in order; the
first panic aborts the whole call. -/
def adjustToImplicitDeadline : List DAGGraph → Option (List DAGGraph)
  | [] => some []
  | d :: rest =>
    match adjustOne d with
    | some d2 =>
      match adjustToImplicitDeadline rest with
      | some rest2 => some (d2 :: rest2)
      | none => none
    | none => none

theorem lookup_paramInsert_self (k : String) (v : Int) (ps : Params) :
    (paramInsert k v ps).lookup k = some v := by
  simp [paramInsert, List.lookup]

theorem lookup_filter_ne {k k2 : String} (h : k2 ≠ k) (ps : Params) :
    (ps.filter (fun p => p.1 ≠ k)).lookup k2 = ps.lookup k2 := by
  induction ps with
  | nil => rfl
  | cons p ps ih =>
    by_cases hp : p.1 = k
    · rw [List.filter_cons_of_neg (by simp [hp])]
      rw [ih, List.lookup]
      have hbe : (k2 == p.1) = false := by simp [hp, h]
      simp [hbe]
    · rw [List.filter_cons_of_pos (by simp [hp])]
      rw [List.lookup, List.lookup]
      cases hbe : k2 == p.1
      · simp only [hbe]
        exact ih
      · simp only [hbe]

theorem lookup_paramInsert_ne {k k2 : String} (h : k2 ≠ k) (v : Int) (ps : Params) :
    (paramInsert k v ps).lookup k2 = ps.lookup k2 := by
  unfold paramInsert
  rw [List.lookup]
  have hbe : (k2 == k) = false := by simpa using h
  simp only [hbe]
  exact lookup_filter_ne h ps

theorem listModify_length (i : Nat) (f : α → α) (l : List α) :
    (listModify i f l).length = l.length := by
  induction l generalizing i with
  | nil => cases i <;> rfl
  | cons x l ih =>
    cases i with
    | zero => rfl
    | succ i => simp [listModify, ih]

theorem listModify_getD_self {i : Nat} {l : List α} (h : i < l.length)
    (f : α → α) (dflt : α) : (listModify i f l).getD i dflt = f (l.getD i dflt) := by
  induction l generalizing i with
  | nil => simp at h
  | cons x l ih =>
    cases i with
    | zero => rfl
    | succ i => simpa [listModify] using ih (by simpa using h)

theorem listModify_getD_ne {i j : Nat} (h : i ≠ j) (f : α → α) (l : List α)
    (dflt : α) : (listModify j f l).getD i dflt = l.getD i dflt := by
  induction l generalizing i j with
  | nil => cases j <;> rfl
  | cons x l ih =>
    cases j with
    | zero =>
      cases i with
      | zero => omega
      | succ i => rfl
    | succ j =>
      cases i with
      | zero => rfl
      | succ i => simpa [listModify] using ih (by omega)

theorem node_addParam_self {d : DAGGraph} {j : Nat} (hj : j < d.nodes.length)
    (k : String) (v : Int) : ((d.addParam j k v).node j).get k = some v := by
  unfold DAGGraph.addParam DAGGraph.node NodeData.get
  simp only [listModify_getD_self hj]
  exact lookup_paramInsert_self k v _

theorem node_addParam_ne_node {d : DAGGraph} {i j : Nat} (h : i ≠ j)
    (k : String) (v : Int) : (d.addParam j k v).node i = d.node i := by
  unfold DAGGraph.addParam DAGGraph.node
  simp only [listModify_getD_ne h]

theorem node_addParam_ne_key {d : DAGGraph} {i j : Nat} {k k2 : String}
    (h : k2 ≠ k) (v : Int) : ((d.addParam j k v).node i).get k2 = (d.node i).get k2 := by
  by_cases hij : i = j
  · subst hij
    by_cases hlen : i < d.nodes.length
    · unfold DAGGraph.addParam DAGGraph.node NodeData.get
      simp only [listModify_getD_self hlen]
      exact lookup_paramInsert_ne h v _
    · unfold DAGGraph.addParam DAGGraph.node
      have h1 : d.nodes.length ≤ i := by omega
      rw [List.getD_eq_default _ _ (by rwa [listModify_length]),
        List.getD_eq_default _ _ h1]
  · rw [node_addParam_ne_node hij]

/-- Inserting `key` at position `j` makes `firstParam key` read exactly
the inserted value whenever every other in-range node lacks `key`. -/
theorem firstParam_modify_insert {key : String} {v : Int} {l : List NodeData} {j : Nat}
    (hjlen : j < l.length)
    (huniq : ∀ i, i ≠ j → i < l.length → ((l.getD i ⟨0, []⟩).get key) = none) :
    firstParam key
      (listModify j (fun n => { n with params := paramInsert key v n.params }) l) =
      some v := by
  induction l generalizing j with
  | nil => simp at hjlen
  | cons x t ih =>
    cases j with
    | zero =>
      unfold firstParam listModify
      have hx : ({ x with params := paramInsert key v x.params } : NodeData).get key =
          some v := lookup_paramInsert_self key v x.params
      rw [List.find?_cons]
      simp [hx]
    | succ j =>
      have hx : x.get key = none := by
        have := huniq 0 (by omega) (by simp)
        simpa using this
      unfold firstParam listModify
      rw [List.find?_cons]
      simp only [hx, Option.isSome_none]
      exact ih (by simpa using hjlen)
        (fun i hij hilen => by
          have := huniq (i + 1) (by omega) (by simpa using hilen)
          simpa using this)

/-- When node `j` alone carries `key`, `firstParam` reads its value. -/
theorem firstParam_unique {key : String} {dl : Int} {l : List NodeData} {j : Nat}
    (hjlen : j < l.length) (hj : (l.getD j ⟨0, []⟩).get key = some dl)
    (huniq : ∀ i, i ≠ j → i < l.length → ((l.getD i ⟨0, []⟩).get key) = none) :
    firstParam key l = some dl := by
  induction l generalizing j with
  | nil => simp at hjlen
  | cons x t ih =>
    cases j with
    | zero =>
      have hx : x.get key = some dl := by simpa using hj
      unfold firstParam
      rw [List.find?_cons]
      simp [hx]
    | succ j =>
      have hx : x.get key = none := by
        have := huniq 0 (by omega) (by simp)
        simpa using this
      unfold firstParam
      rw [List.find?_cons]
      simp only [hx, Option.isSome_none]
      exact ih (by simpa using hjlen) (by simpa using hj)
        (fun i hij hilen => by
          have := huniq (i + 1) (by omega) (by simpa using hilen)
          simpa using this)

/-- Inserting a different key anywhere leaves `firstParam key`
unchanged. -/
theorem firstParam_modify_other {key k2 : String} (hne : key ≠ k2) (v : Int)
    (l : List NodeData) (j : Nat) :
    firstParam key
      (listModify j (fun n => { n with params := paramInsert k2 v n.params }) l) =
      firstParam key l := by
  induction l generalizing j with
  | nil => cases j <;> rfl
  | cons x t ih =>
    cases j with
    | zero =>
      have hx : ({ x with params := paramInsert k2 v x.params } : NodeData).get key =
          x.get key := lookup_paramInsert_ne hne v x.params
      unfold firstParam listModify
      rw [List.find?_cons, List.find?_cons]
      simp only [hx]
      cases hp : (x.get key).isSome
      · simp only [hp]
      · simp only [hp, Option.bind_some]
        simp [hx]
    | succ j =>
      unfold firstParam listModify
      rw [List.find?_cons, List.find?_cons]
      cases hp : (x.get key).isSome
      · simp only [hp]
        exact ih j
      · simp only [hp]

/-- `firstParam` returning `none` means no node carries the key. -/
theorem firstParam_none {key : String} {l : List NodeData}
    (h : firstParam key l = none) (i : Nat) (hi : i < l.length) :
    (l.getD i ⟨0, []⟩).get key = none := by
  unfold firstParam at h
  cases hf : l.find? (fun n => (n.get key).isSome) with
  | some n =>
    rw [hf] at h
    have := List.find?_some hf
    simp only [Option.isSome_iff_exists] at this
    obtain ⟨v, hv⟩ := this
    simp [hv] at h
  | none =>
    rw [List.find?_eq_none] at hf
    have hmem : l.getD i ⟨0, []⟩ ∈ l := by
      rw [List.getD_eq_getElem _ _ hi]
      exact List.getElem_mem hi
    have := hf (l.getD i ⟨0, []⟩) hmem
    simpa using this

/-- `firstParam` returning a value means some node carries the key, so
the list is nonempty. -/
theorem firstParam_some_nonempty {key : String} {l : List NodeData} {v : Int}
    (h : firstParam key l = some v) : 0 < l.length := by
  unfold firstParam at h
  cases hf : l.find? (fun n => (n.get key).isSome) with
  | some n =>
    have := List.mem_of_find?_eq_some hf
    exact List.length_pos.mpr (by rintro rfl; simp at this)
  | none => rw [hf] at h; simp at h

theorem mem_getSinkNodes {d : DAGGraph} {i : Nat} :
    i ∈ d.getSinkNodes ↔ (i < d.nodes.length ∧ d.isSink i) := by
  unfold DAGGraph.getSinkNodes
  rw [(stableSortByKey_perm _ _).mem_iff, List.mem_filter, List.mem_range]

/-- The sink scan of `enforce_equal_period_and_deadline` finds the unique
deadline-carrying node. -/
theorem sinkScan_finds_unique {d : DAGGraph} {j : Nat} {dl : Int}
    (hjlen : j < d.nodes.length) (hj : (d.node j).get "end_to_end_deadline" = some dl)
    (huniq : ∀ i, i ≠ j → i < d.nodes.length →
      (d.node i).get "end_to_end_deadline" = none)
    (hsink : d.isSink j) :
    d.getSinkNodes.find? (fun i => ((d.node i).get "end_to_end_deadline").isSome) =
      some j := by
  cases hf : d.getSinkNodes.find?
      (fun i => ((d.node i).get "end_to_end_deadline").isSome) with
  | some x =>
    have hx := List.find?_some hf
    have hxmem := List.mem_of_find?_eq_some hf
    rw [mem_getSinkNodes] at hxmem
    by_cases hxj : x = j
    · rw [hxj]
    · rw [huniq x hxj hxmem.1] at hx
      simp at hx
  | none =>
    rw [List.find?_eq_none] at hf
    have := hf j (mem_getSinkNodes.mpr ⟨hjlen, hsink⟩)
    rw [hj] at this
    simp at this

/-- C6.  `adjust_to_implicit_deadline`: a DAG with both a head period and
a (unique, sink-borne) end-to-end deadline of a different value gets its
deadline overridden to the period; a DAG with exactly one of the two gets
the other set equal to it; and a DAG with neither makes the whole call
fail (`MissingDeadlineAndPeriod`, the panic at `util.rs:35`). -/
theorem claim6_adjust_to_implicit_deadline :
    (∀ (d : DAGGraph) (p dl : Int) (j : Nat),
      d.getHeadPeriod = some p → j < d.nodes.length →
      (d.node j).get "end_to_end_deadline" = some dl →
      (∀ i, i ≠ j → i < d.nodes.length →
        (d.node i).get "end_to_end_deadline" = none) →
      d.isSink j → dl ≠ p →
      ∃ d2, adjustOne d = some d2 ∧ d2.getEndToEndDeadline = some p ∧
        d2.getHeadPeriod = some p) ∧
    (∀ (d : DAGGraph) (dl : Int),
      d.getHeadPeriod = none → d.getEndToEndDeadline = some dl →
      adjustOne d = some (d.addParam 0 "period" dl) ∧
        (d.addParam 0 "period" dl).getHeadPeriod = some dl ∧
        (d.addParam 0 "period" dl).getEndToEndDeadline = some dl) ∧
    (∀ (d : DAGGraph) (p : Int),
      d.getHeadPeriod = some p → d.getEndToEndDeadline = none →
      adjustOne d =
          some (d.addParam (d.nodes.length - 1) "end_to_end_deadline" p) ∧
        (d.addParam (d.nodes.length - 1) "end_to_end_deadline" p).getEndToEndDeadline =
          some p ∧
        (d.addParam (d.nodes.length - 1) "end_to_end_deadline" p).getHeadPeriod =
          some p) ∧
    (∀ (dagSet : List DAGGraph) (d : DAGGraph), d ∈ dagSet →
      d.getHeadPeriod = none → d.getEndToEndDeadline = none →
      adjustToImplicitDeadline dagSet = none) := by
  refine ⟨?_, ?_, ?_, ?_⟩
  · intro d p dl j hp hjlen hj huniq hsink hne
    have hdl : d.getEndToEndDeadline = some dl := firstParam_unique hjlen hj huniq
    refine ⟨d.updateParam j "end_to_end_deadline" p, ?_, ?_, ?_⟩
    · unfold adjustOne
      rw [hp, hdl]
      show enforceEqualPeriodAndDeadline d p dl = _
      unfold enforceEqualPeriodAndDeadline
      rw [if_pos hne, sinkScan_finds_unique hjlen hj huniq hsink]
    · exact firstParam_modify_insert hjlen huniq
    · unfold DAGGraph.updateParam DAGGraph.addParam DAGGraph.getHeadPeriod
      rw [firstParam_modify_other (by decide) p d.nodes j]
      exact hp
  · intro d dl hp hdl
    have hlen : 0 < d.nodes.length := firstParam_some_nonempty hdl
    refine ⟨by unfold adjustOne; rw [hp, hdl], ?_, ?_⟩
    · unfold DAGGraph.addParam DAGGraph.getHeadPeriod
      exact firstParam_modify_insert hlen
        (fun i hi hilen => firstParam_none hp i hilen)
    · unfold DAGGraph.addParam DAGGraph.getEndToEndDeadline
      rw [firstParam_modify_other (by decide) dl d.nodes 0]
      exact hdl
  · intro d p hp hdl
    have hlen : 0 < d.nodes.length := firstParam_some_nonempty hp
    refine ⟨by unfold adjustOne; rw [hp, hdl], ?_, ?_⟩
    · unfold DAGGraph.addParam DAGGraph.getEndToEndDeadline
      exact firstParam_modify_insert (by omega)
        (fun i hi hilen => firstParam_none hdl i hilen)
    · unfold DAGGraph.addParam DAGGraph.getHeadPeriod
      rw [firstParam_modify_other (by decide) p d.nodes (d.nodes.length - 1)]
      exact hp
  · intro dagSet d hmem hp hdl
    have hone : adjustOne d = none := by unfold adjustOne; rw [hp, hdl]
    induction dagSet with
    | nil => simp at hmem
    | cons x rest ih =>
      rcases List.mem_cons.mp hmem with rfl | hmem2
      · unfold adjustToImplicitDeadline
        rw [hone]
      · unfold adjustToImplicitDeadline
        rw [ih hmem2]
        cases adjustOne x <;> rfl

/-- C6 witness: the three normalization shapes and the failing shape on
concrete one- and two-node DAGs. -/
theorem claim6_adjust_to_implicit_deadline_witness :
    (∃ d2, adjustOne ⟨[⟨0, [("period", 10)]⟩, ⟨1, [("end_to_end_deadline", 7)]⟩],
        [(0, 1)]⟩ = some d2 ∧
      d2.getEndToEndDeadline = some 10 ∧ d2.getHeadPeriod = some 10) ∧
    adjustToImplicitDeadline [⟨[⟨0, []⟩], []⟩] = none := by
  constructor
  · exact (claim6_adjust_to_implicit_deadline.1)
      ⟨[⟨0, [("period", 10)]⟩, ⟨1, [("end_to_end_deadline", 7)]⟩], [(0, 1)]⟩
      10 7 1 (by decide) (by decide) (by decide)
      (fun i hi hilen => by
        match i with
        | 0 => decide
        | 1 => exact absurd rfl hi
        | n + 2 => exact absurd hilen (by simp))
      (by decide) (by decide)
  · exact (claim6_adjust_to_implicit_deadline.2.2.2) [⟨[⟨0, []⟩], []⟩] ⟨[⟨0, []⟩], []⟩
      (by simp) (by decide) (by decide)

/-! ### Federated feasibility analysis
(`src/2014_ECRTS_federated_original`; the analysis function itself,
`federated.rs`, is not under `src/`, so it is modelled from the spec
(§4.6); its oracle values come from the tests in
`src/2014_ECRTS_federated_original/src/outputs_result.rs`.) -/

/-- Modelled from the spec: `get_volume` — sum of `execution_time` over
all nodes (§3). -/
def DAGGraph.getVolume (d : DAGGraph) : Int :=
  (d.nodes.map (fun n => (n.get "execution_time").getD 0)).sum

/-- Direct successors of node `i` (`get_suc_nodes` neighbour walk; order
is irrelevant to the properties proved here). -/
def DAGGraph.sucs (d : DAGGraph) (i : Nat) : List Nat :=
  (d.edges.filter (fun e => e.1 = i)).map (fun e => e.2)

/-- Execution time of node `i`, default 0. -/
def DAGGraph.et (d : DAGGraph) (i : Nat) : Int :=
  ((d.node i).get "execution_time").getD 0

/-- Longest execution-time sum of a path starting at `i`, with recursion
fuel; fuel `d.nodes.length` is exact on acyclic graphs. -/
def longestFrom (d : DAGGraph) : Nat → Nat → Int
  | 0, i => d.et i
  | fuel + 1, i => d.et i + ((d.sucs i).map (longestFrom d fuel)).foldl max 0

/-- Modelled from the spec: `critical_path_length` — the largest
execution-time sum over paths (§3). -/
def DAGGraph.criticalPathLength (d : DAGGraph) : Int :=
  ((List.range d.nodes.length).map (longestFrom d d.nodes.length)).foldl max 0

/-- Modelled from the spec: `utilization = volume / period` (§3). -/
def DAGGraph.utilization (d : DAGGraph) : ℚ :=
  (d.getVolume : ℚ) / ((d.getHeadPeriod.getD 0 : Int) : ℚ)

/-- The Melani bound `m_k = ceil((volume_k − L_k) / (T_k − L_k))`
(spec §4.6). -/
def melani (vol L T : Int) : Int :=
  Int.ceil (((vol - L : Int) : ℚ) / ((T - L : Int) : ℚ))

/-- `FederateResult` of `2014_ECRTS_federated_original` (tagged result
data, not an error). -/
inductive FederateResult where
  | schedulable (high_dedicated_cores low_dedicated_cores : Int)
  | unschedulable (reason : String) (insufficient_cores : Int)
deriving DecidableEq, Repr

/-- Modelled from the spec: the federated analysis `federated(dag_set, m)`
(§4.6); `federated.rs` is not under `src/`.  Reason strings follow the
test oracle in `outputs_result.rs`. -/
def federated (dagSet : List DAGGraph) (m : Int) : FederateResult :=
  if dagSet.any (fun d => d.criticalPathLength > d.getHeadPeriod.getD 0) then
    .unschedulable "The critical path length is greater than end_to_end_deadline." 0
  else
    let high := dagSet.filter (fun d => decide (1 < d.utilization))
    let highTotal := (high.map
      (fun d => melani d.getVolume d.criticalPathLength (d.getHeadPeriod.getD 0))).sum
    if highTotal > m then
      .unschedulable "Insufficient number of cores for high-utilization tasks."
        (highTotal - m)
    else
      let low := dagSet.filter (fun d => decide (d.utilization ≤ 1))
      let lowCores := m - highTotal
      let lowUtilSum : ℚ := (low.map (fun d => d.utilization)).sum
      if lowUtilSum ≤ (lowCores : ℚ) / 2 then
        .schedulable highTotal lowCores
      else
        .unschedulable "Insufficient number of cores for low-utilization tasks."
          (Int.ceil (2 * lowUtilSum) - lowCores)

/-- `create_high_utilization_dag` of `outputs_result.rs:77-93`: four
nodes with execution times 4, 4, 3, 3, a period of 10 on the source, and
edges from the source to each other node. -/
def highUtilizationDag : DAGGraph :=
  ⟨[⟨3, [("execution_time", 4), ("period", 10)]⟩,
    ⟨1, [("execution_time", 4)]⟩,
    ⟨2, [("execution_time", 3)]⟩,
    ⟨3, [("execution_time", 3)]⟩],
   [(0, 1), (0, 2), (0, 3)]⟩

/-- `create_low_utilization_dag` of `outputs_result.rs:95-109`: three
nodes with execution times 3, 3, 4 and a period of 30 on the source. -/
def lowUtilizationDag : DAGGraph :=
  ⟨[⟨2, [("execution_time", 3), ("period", 30)]⟩,
    ⟨0, [("execution_time", 3)]⟩,
    ⟨1, [("execution_time", 4)]⟩],
   [(0, 1), (0, 2)]⟩

theorem lowUtilizationDag_utilization : lowUtilizationDag.utilization = 1 / 3 := by
  unfold DAGGraph.utilization
  norm_num [show lowUtilizationDag.getVolume = 10 by decide,
    show lowUtilizationDag.getHeadPeriod = some 30 by decide]

theorem melani_reference : melani 14 8 10 = 3 := by
  unfold melani
  norm_num

/-- The federated analysis evaluated on the reference DAG set of
`test_dump_federated_result_to_file_normal`. -/
theorem federated_reference_eval :
    federated [highUtilizationDag, highUtilizationDag, lowUtilizationDag] 40 =
      .schedulable 6 34 := by
  have hHu : (1 : ℚ) < highUtilizationDag.utilization := by
    unfold DAGGraph.utilization
    norm_num [show highUtilizationDag.getVolume = 14 by decide,
      show highUtilizationDag.getHeadPeriod = some 10 by decide]
  have hLuq := lowUtilizationDag_utilization
  have hLu : ¬ (1 : ℚ) < lowUtilizationDag.utilization := by rw [hLuq]; norm_num
  have hLu2 : lowUtilizationDag.utilization ≤ 1 := by rw [hLuq]; norm_num
  have hHu2 : ¬ highUtilizationDag.utilization ≤ 1 := by
    intro h; exact absurd hHu (not_lt.mpr h)
  have hm : melani highUtilizationDag.getVolume highUtilizationDag.criticalPathLength
      (highUtilizationDag.getHeadPeriod.getD 0) = 3 := by
    rw [show highUtilizationDag.getVolume = 14 by decide,
      show highUtilizationDag.criticalPathLength = 8 by decide,
      show highUtilizationDag.getHeadPeriod = some 10 by decide]
    exact melani_reference
  unfold federated
  rw [if_neg (by decide)]
  simp only [List.filter_cons, List.filter_nil, decide_eq_true hHu,
    decide_eq_false hLu, decide_eq_true hLu2,
    decide_eq_false hHu2, if_true, if_false, List.map_cons, List.map_nil,
    List.sum_cons, List.sum_nil, hm, hLuq]
  norm_num
  intro h
  rw [hLuq] at h
  norm_num at h

/-- C5 (counterexample).  The claim expects the federated reference
scenario (two high-utilization DAGs and one low-utilization DAG on 40
cores) to yield `Schedulable { high_dedicated_cores: 4,
low_dedicated_cores: 36 }`; the reference DAGs of `outputs_result.rs`
have volume 14 and critical path 8, so the analysis yields
`Schedulable { 6, 34 }` — exactly the oracle of
`test_dump_federated_result_to_file_normal` — and not `{ 4, 36 }`. -/
theorem claim5_counterexample :
    federated [highUtilizationDag, highUtilizationDag, lowUtilizationDag] 40 =
      .schedulable 6 34 ∧
    federated [highUtilizationDag, highUtilizationDag, lowUtilizationDag] 40 ≠
      .schedulable 4 36 := by
  refine ⟨federated_reference_eval, ?_⟩
  rw [federated_reference_eval]
  intro h
  injection h with h1 h2
  exact absurd h1 (by decide)

/-- C5 (amended).  For the federated reference scenario of
`outputs_result.rs` — two high-utilization DAGs (volume 14, critical
path length 8, period 10) and one low-utilization DAG of utilization 1/3,
on 40 cores — the analysis returns `Schedulable { high_dedicated_cores:
6, low_dedicated_cores: 34 }`, each high DAG's dedicated core count being
the Melani bound `ceil((volume − L) / (T − L)) = ceil(6/2) = 3`. -/
theorem claim5_federated_reference :
    highUtilizationDag.getVolume = 14 ∧
    highUtilizationDag.criticalPathLength = 8 ∧
    highUtilizationDag.getHeadPeriod = some 10 ∧
    lowUtilizationDag.utilization = 1 / 3 ∧
    melani 14 8 10 = 3 ∧
    federated [highUtilizationDag, highUtilizationDag, lowUtilizationDag] 40 =
      .schedulable 6 34 :=
  ⟨by decide, by decide, by decide, lowUtilizationDag_utilization,
    melani_reference, federated_reference_eval⟩

/-! ### Processor model

`homogeneous.rs` / `core.rs` are not under `src/`; the processor is
modelled from the spec (§4.2). -/

/-- A core is `Idle` or `Running { node, remaining }`. -/
inductive CoreState where
  | idle
  | running (node : NodeData) (remaining : Int)
deriving DecidableEq, Repr

def CoreState.isIdle : CoreState → Bool
  | .idle => true
  | .running _ _ => false

/-- `HomogeneousProcessor`: a fixed array of cores. -/
structure Processor where
  cores : List CoreState
deriving DecidableEq, Repr

/-- `HomogeneousProcessor::new(n)`: `n` idle cores. -/
def processorNew (n : Nat) : Processor :=
  ⟨List.replicate n .idle⟩

/-- Modelled from the spec: `get_idle_core_num` (§4.2). -/
def Processor.getIdleCoreNum (p : Processor) : Nat :=
  (p.cores.filter CoreState.isIdle).length

/-- Index of the lowest-numbered idle core, if any. -/
def idleIdx : List CoreState → Option Nat
  | [] => none
  | c :: rest => if c.isIdle then some 0 else (idleIdx rest).map (· + 1)

/-- Modelled from the spec: `get_idle_core_index` — the lowest-numbered
idle core or none (§4.2). -/
def Processor.getIdleCoreIndex (p : Processor) : Option Nat :=
  idleIdx p.cores

/-- Modelled from the spec: `allocate_specific_core(i, node)` — requires
core `i` idle; transitions it to `Running { node, remaining =
execution_time }` (§4.2). -/
def Processor.allocateSpecificCore (p : Processor) (i : Nat) (node : NodeData) :
    Processor :=
  ⟨listModify i (fun _ => .running node ((node.get "execution_time").getD 0)) p.cores⟩

/-- `ProcessResult` of `core.rs`: per-core outcome of one tick. -/
inductive ProcessResult where
  | continued
  | done (node : NodeData)
deriving DecidableEq, Repr

def ProcessResult.isDone : ProcessResult → Bool
  | .continued => false
  | .done _ => true

/-- Modelled from the spec: `process()` — one tick: every running core
decrements `remaining`; on reaching 0 it becomes idle and reports
`Done(node)`, otherwise `Continue`; the result list is index-parallel to
the cores (§4.2). -/
def coreStep : CoreState → CoreState × ProcessResult
  | .idle => (.idle, .continued)
  | .running node r =>
    if r - 1 = 0 then (.idle, .done node)
    else (.running node (r - 1), .continued)

def Processor.process (p : Processor) : Processor × List ProcessResult :=
  let stepped := p.cores.map coreStep
  (⟨stepped.map Prod.fst⟩, stepped.map Prod.snd)

/-! ### DAG state managers (`src/lib/src/scheduler.rs:150-287`)

Only the basic-mode fields are represented: in `new_basic()` the extended
(`Option`) fields are `None`, so `start()` and `reset_state()` touch
nothing beyond these three. -/

structure DAGStateManager where
  release_count : Int
  is_started : Bool
  is_released : Bool
deriving DecidableEq, Repr

instance : Inhabited DAGStateManager := ⟨⟨0, false, false⟩⟩

/-! ### Per-node scheduling state (spec-modelled `graph_extension.rs`) -/

/-- In-degree of node `i` (parallel edges counted). -/
def DAGGraph.inDegree (d : DAGGraph) (i : Nat) : Nat :=
  (d.edges.filter (fun e => e.2 = i)).length

/-- Modelled from the spec: `is_node_ready` — `pre_done_count` equals the
in-degree (§4.1); a missing counter reads as 0. -/
def DAGGraph.isNodeReady (d : DAGGraph) (i : Nat) : Bool :=
  ((d.node i).get "pre_done_count").getD 0 = (d.inDegree i : Int)

/-- Modelled from the spec: `increment_pre_done_count` (§4.1). -/
def DAGGraph.incrementPreDoneCount (d : DAGGraph) (i : Nat) : DAGGraph :=
  d.addParam i "pre_done_count" (((d.node i).get "pre_done_count").getD 0 + 1)

/-- Modelled from the spec: `reset_pre_done_count` — zeroes the counter
on every node (§4.1). -/
def DAGGraph.resetPreDoneCount (d : DAGGraph) : DAGGraph :=
  { d with nodes :=
      d.nodes.map (fun n => { n with params := paramInsert "pre_done_count" 0 n.params }) }

/-- Modelled from the spec: `set_dag_id` — stamps `dag_id = k` into every
node so nodes can be identified in the global ready set (§4.1). -/
def DAGGraph.setDagId (d : DAGGraph) (k : Int) : DAGGraph :=
  { d with nodes :=
      d.nodes.map (fun n => { n with params := paramInsert "dag_id" k n.params }) }

/-- Modelled from the spec: `set_dag_period` — `initialize()` sets the
DAG period from the head period (§4.4); it is stamped into every node so
the global-EDF comparator can read `period` on any ready node (§4.5). -/
def DAGGraph.setDagPeriod (d : DAGGraph) (p : Int) : DAGGraph :=
  { d with nodes :=
      d.nodes.map (fun n => { n with params := paramInsert "period" p n.params }) }

/-- Modelled from the spec: `get_dag_id` reads the stamp back; the model
reads it off the first node. -/
def DAGGraph.getDagId (d : DAGGraph) : Nat :=
  (((d.nodes.headD ⟨0, []⟩).get "dag_id").getD 0).toNat

/-! ### GlobalEDFScheduler (`src/lib/src/global_edf_scheduler.rs`)

The `DAGSetSchedulerLog` is write-only in `schedule()` and never feeds
back into control flow, so it is omitted from the state. -/

structure GEDFState where
  dagSet : List DAGGraph
  processor : Processor
  currentTime : Int
  managers : List DAGStateManager
  readyQueue : List NodeData
deriving DecidableEq, Repr

/-- `initialize()` (`global_edf_scheduler.rs:95-101`): each DAG `k` gets
`dag_id = k` and its period stamped; `enumerate` is modelled by an
explicit index argument. -/
def initDags (k : Nat) : List DAGGraph → List DAGGraph
  | [] => []
  | d :: rest =>
    (let d1 := d.setDagId k
     d1.setDagPeriod (d1.getHeadPeriod.getD 0)) :: initDags (k + 1) rest

def initDagSet (s : GEDFState) : GEDFState :=
  { s with dagSet := initDags 0 s.dagSet }

/-- `release_dag` (`global_edf_scheduler.rs:103-115`): a DAG whose
release time `head_offset + head_period * release_count` equals
`current_time` is marked released and its count bumped. -/
def releaseDag (s : GEDFState) : GEDFState :=
  let ms := s.dagSet.foldl
    (fun ms d =>
      let dagId := d.getDagId
      let m := ms.getD dagId default
      if s.currentTime = d.getHeadOffset + d.getHeadPeriod.getD 0 * m.release_count
      then
        listModify dagId
          (fun m =>
            { m with is_released := true, release_count := m.release_count + 1 })
          ms
      else ms)
    s.managers
  { s with managers := ms }

/-- `start_dag` (`global_edf_scheduler.rs:117-131`): while idle cores
remain, each released-but-unstarted DAG is started and its first source
node inserted into the ready set. -/
def startDag (s : GEDFState) : GEDFState :=
  let stepped := (List.range s.managers.length).foldl
    (fun (acc : Nat × List DAGStateManager × List NodeData) dagId =>
      let m := acc.2.1.getD dagId default
      if 0 < acc.1 ∧ ¬ m.is_started ∧ m.is_released then
        let d := s.dagSet.getD dagId ⟨[], []⟩
        let src := d.node (d.getSourceNodes.getD 0 0)
        (acc.1 - 1,
         listModify dagId (fun m => { m with is_started := true }) acc.2.1,
         rqInsert src acc.2.2)
      else acc)
    (s.processor.getIdleCoreNum, s.managers, s.readyQueue)
  { s with managers := stepped.2.1, readyQueue := stepped.2.2 }

/-- The `while !ready_queue.is_empty()` loop of `allocate_node`
(`global_edf_scheduler.rs:133-151`): pop the minimum, allocate it on the
lowest idle core, stop when no core is idle. -/
def allocLoop : List NodeData → Processor → List NodeData × Processor
  | [], p => ([], p)
  | x :: rest, p =>
    match p.getIdleCoreIndex with
    | some i => allocLoop rest (p.allocateSpecificCore i x)
    | none => (x :: rest, p)

def allocateNode (s : GEDFState) : GEDFState :=
  let out := allocLoop s.readyQueue s.processor
  { s with readyQueue := out.1, processor := out.2 }

/-- `process_unit_time` (`global_edf_scheduler.rs:153-156`). -/
def processUnitTime (s : GEDFState) : GEDFState × List ProcessResult :=
  let out := s.processor.process
  ({ s with currentTime := s.currentTime + 1, processor := out.1 }, out.2)

/-- One `Done(node)` case of `handling_nodes_finished`
(`global_edf_scheduler.rs:163-183`). -/
def handleOne (s : GEDFState) (r : ProcessResult) : GEDFState :=
  match r with
  | .continued => s
  | .done nd =>
    let dagId := ((nd.get "dag_id").getD 0).toNat
    let d := s.dagSet.getD dagId ⟨[], []⟩
    let suc := d.sucs nd.id.toNat
    if suc.isEmpty then
      let newDags := listModify dagId (fun d => d.resetPreDoneCount) s.dagSet
      let newMs := listModify dagId
        (fun m => { m with is_started := false, is_released := false }) s.managers
      { s with dagSet := newDags, managers := newMs }
    else
      let newDags := listModify dagId
        (fun d => suc.foldl (fun d j => d.incrementPreDoneCount j) d) s.dagSet
      { s with dagSet := newDags }

/-- `handling_nodes_finished` (`global_edf_scheduler.rs:158-185`). -/
def handleFinished (s : GEDFState) (results : List ProcessResult) : GEDFState :=
  results.foldl handleOne s

/-- One `Done(node)` case of `insert_ready_node`
(`global_edf_scheduler.rs:189-203`). -/
def insertOne (s : GEDFState) (r : ProcessResult) : GEDFState :=
  match r with
  | .continued => s
  | .done nd =>
    let dagId := ((nd.get "dag_id").getD 0).toNat
    let d := s.dagSet.getD dagId ⟨[], []⟩
    (d.sucs nd.id.toNat).foldl
      (fun s j =>
        if d.isNodeReady j then
          { s with readyQueue := rqInsert (d.node j) s.readyQueue }
        else s)
      s

/-- `insert_ready_node` (`global_edf_scheduler.rs:187-205`). -/
def insertReadyNode (s : GEDFState) (results : List ProcessResult) : GEDFState :=
  results.foldl insertOne s

/-- One iteration of the `while current_time < hyper_period` loop of
`schedule()` (`global_edf_scheduler.rs:216-229`). -/
def gedfStep (s : GEDFState) : GEDFState :=
  let s1 := releaseDag s
  let s2 := startDag s1
  let s3 := allocateNode s2
  let out := processUnitTime s3
  insertReadyNode (handleFinished out.1 out.2) out.2

/-- `lcm` from the `num_integer` crate: always non-negative. -/
def intLcm (a b : Int) : Int :=
  (Int.lcm a b : Nat)

/-- `get_hyper_period` (`src/lib/src/util.rs:7-14`). -/
def getHyperPeriod (dagSet : List DAGGraph) : Int :=
  dagSet.foldl (fun hp d => intLcm hp (d.getHeadPeriod.getD 0)) 1

theorem releaseDag_time (s : GEDFState) : (releaseDag s).currentTime = s.currentTime :=
  rfl

theorem startDag_time (s : GEDFState) : (startDag s).currentTime = s.currentTime :=
  rfl

theorem allocateNode_time (s : GEDFState) :
    (allocateNode s).currentTime = s.currentTime :=
  rfl

theorem foldl_preserves {f : β → α → β} {P : β → Prop}
    (h : ∀ b a, P b → P (f b a)) :
    ∀ (l : List α) (b : β), P b → P (l.foldl f b) := by
  intro l
  induction l with
  | nil => intro b hb; exact hb
  | cons x t ih => intro b hb; exact ih (f b x) (h b x hb)

theorem handleOne_time (s : GEDFState) (r : ProcessResult) :
    (handleOne s r).currentTime = s.currentTime := by
  unfold handleOne
  cases r with
  | continued => rfl
  | done nd => dsimp only; split <;> rfl

theorem handleFinished_time (s : GEDFState) (results : List ProcessResult) :
    (handleFinished s results).currentTime = s.currentTime := by
  unfold handleFinished
  refine foldl_preserves (P := fun st => st.currentTime = s.currentTime) ?_ results s rfl
  intro b r hb
  rw [handleOne_time, hb]

theorem insertOne_time (s : GEDFState) (r : ProcessResult) :
    (insertOne s r).currentTime = s.currentTime := by
  unfold insertOne
  cases r with
  | continued => rfl
  | done nd =>
    dsimp only
    refine foldl_preserves (P := fun st => st.currentTime = s.currentTime) ?_ _ s rfl
    intro b2 j hb2
    dsimp only
    split <;> exact hb2

theorem insertReadyNode_time (s : GEDFState) (results : List ProcessResult) :
    (insertReadyNode s results).currentTime = s.currentTime := by
  unfold insertReadyNode
  refine foldl_preserves (P := fun st => st.currentTime = s.currentTime) ?_ results s rfl
  intro b r hb
  rw [insertOne_time, hb]

theorem gedfStep_time (s : GEDFState) : (gedfStep s).currentTime = s.currentTime + 1 := by
  unfold gedfStep
  rw [insertReadyNode_time, handleFinished_time]
  show (processUnitTime _).1.currentTime = _
  unfold processUnitTime
  dsimp only
  rw [allocateNode_time, startDag_time, releaseDag_time]

/-- The scheduling loop of `schedule()`: iterate `gedfStep` while
`current_time < hyper_period`. -/
def gedfScheduleAux (hp : Int) (s : GEDFState) : GEDFState :=
  if h : s.currentTime < hp then gedfScheduleAux hp (gedfStep s) else s
termination_by (hp - s.currentTime).toNat
decreasing_by
  rw [gedfStep_time]
  omega

/-- `GlobalEDFScheduler::schedule()` (`global_edf_scheduler.rs:207-235`):
initialize, compute the hyper-period, loop, return `current_time`.  The
final `calculate_utilization` only writes the log. -/
def gedfSchedule (dagSet : List DAGGraph) (processor : Processor) : Int :=
  let s0 : GEDFState :=
    ⟨dagSet, processor, 0, List.replicate dagSet.length default, []⟩
  let s1 := initDagSet s0
  let hp := getHyperPeriod s1.dagSet
  (gedfScheduleAux hp s1).currentTime

theorem gedfScheduleAux_time (hp : Int) (s : GEDFState) :
    (gedfScheduleAux hp s).currentTime =
      if s.currentTime < hp then hp else s.currentTime := by
  generalize hn : (hp - s.currentTime).toNat = n
  induction n using Nat.strong_induction_on generalizing s with
  | _ n ih =>
    rw [gedfScheduleAux]
    split <;> rename_i h
    · have hlt : ((hp - (gedfStep s).currentTime).toNat) < n := by
        rw [gedfStep_time]; omega
      rw [ih _ hlt (gedfStep s) rfl, gedfStep_time]
      by_cases h2 : s.currentTime + 1 < hp
      · rw [if_pos h2]
      · rw [if_neg h2]; omega
    · rfl

theorem firstParam_map_congr {key : String} {f : NodeData → NodeData}
    (h : ∀ n, (f n).get key = n.get key) (l : List NodeData) :
    firstParam key (l.map f) = firstParam key l := by
  induction l with
  | nil => rfl
  | cons x t ih =>
    unfold firstParam
    rw [List.map_cons, List.find?_cons, List.find?_cons]
    simp only [h x]
    cases hp : (x.get key).isSome
    · simp only [hp]
      exact ih
    · simp only [hp, Option.bind_some]
      simp [h x]

theorem firstParam_map_insert_self (key : String) (v : Int) {l : List NodeData}
    (hne : 0 < l.length) :
    firstParam key
      (l.map (fun n => { n with params := paramInsert key v n.params })) = some v := by
  cases l with
  | nil => simp at hne
  | cons x t =>
    unfold firstParam
    rw [List.map_cons, List.find?_cons]
    have hx : ({ x with params := paramInsert key v x.params } : NodeData).get key =
        some v := lookup_paramInsert_self key v x.params
    simp [hx]

theorem setDagId_getHeadPeriod (d : DAGGraph) (k : Int) :
    (d.setDagId k).getHeadPeriod = d.getHeadPeriod := by
  unfold DAGGraph.setDagId DAGGraph.getHeadPeriod
  refine firstParam_map_congr (fun n => ?_) d.nodes
  show (paramInsert "dag_id" k n.params).lookup "period" = n.params.lookup "period"
  exact lookup_paramInsert_ne (by decide) k n.params

theorem initDags_headPeriods (k : Nat) (l : List DAGGraph)
    (h : ∀ d ∈ l, (d.getHeadPeriod).isSome) :
    (initDags k l).map (fun d => d.getHeadPeriod) =
      l.map (fun d => d.getHeadPeriod) := by
  induction l generalizing k with
  | nil => rfl
  | cons d t ih =>
    have hd := h d (List.mem_cons_self d t)
    obtain ⟨p, hp⟩ := Option.isSome_iff_exists.mp hd
    simp only [initDags, List.map_cons]
    have h1 : (d.setDagId k).getHeadPeriod = some p := by
      rw [setDagId_getHeadPeriod]; exact hp
    have hlen : 0 < (d.setDagId k).nodes.length := by
      have := firstParam_some_nonempty h1
      exact this
    have h2 : ((d.setDagId k).setDagPeriod
        ((d.setDagId k).getHeadPeriod.getD 0)).getHeadPeriod = some p := by
      rw [h1]
      unfold DAGGraph.setDagPeriod DAGGraph.getHeadPeriod
      exact firstParam_map_insert_self "period" p hlen
    rw [h2, hp, ih (k + 1) (fun d2 hd2 => h d2 (List.mem_cons_of_mem d hd2))]

theorem getHyperPeriod_eq_of_headPeriods {l₁ l₂ : List DAGGraph}
    (h : l₁.map (fun d => d.getHeadPeriod) = l₂.map (fun d => d.getHeadPeriod)) :
    getHyperPeriod l₁ = getHyperPeriod l₂ := by
  unfold getHyperPeriod
  have e1 := List.foldl_map (fun d : DAGGraph => d.getHeadPeriod)
    (fun (hp : Int) (o : Option Int) => intLcm hp (o.getD 0)) l₁ 1
  have e2 := List.foldl_map (fun d : DAGGraph => d.getHeadPeriod)
    (fun (hp : Int) (o : Option Int) => intLcm hp (o.getD 0)) l₂ 1
  rw [← e1, ← e2, h]

theorem getHyperPeriod_nonneg (l : List DAGGraph) : 0 ≤ getHyperPeriod l := by
  unfold getHyperPeriod
  refine foldl_preserves (P := fun b : Int => 0 ≤ b) ?_ l 1 (by omega)
  intro b d hb
  unfold intLcm
  exact Int.natCast_nonneg _

/-- C3.  For a DAG set in which every DAG carries a head period,
`GlobalEDFScheduler::schedule()` terminates (the loop advances
`current_time` by one per iteration from 0) and returns exactly the
hyper-period, the `lcm` of the head periods. -/
theorem claim3_hyper_period_termination (dagSet : List DAGGraph)
    (processor : Processor) (h : ∀ d ∈ dagSet, (d.getHeadPeriod).isSome) :
    gedfSchedule dagSet processor = getHyperPeriod dagSet := by
  unfold gedfSchedule
  dsimp only
  rw [gedfScheduleAux_time]
  have hset : (initDagSet
      ⟨dagSet, processor, 0, List.replicate dagSet.length default, []⟩).dagSet =
      initDags 0 dagSet := rfl
  have htime : (initDagSet
      ⟨dagSet, processor, 0, List.replicate dagSet.length default, []⟩).currentTime =
      0 := rfl
  rw [hset, htime]
  have hhp : getHyperPeriod (initDags 0 dagSet) = getHyperPeriod dagSet :=
    getHyperPeriod_eq_of_headPeriods (initDags_headPeriods 0 dagSet h)
  rw [hhp]
  have h0 := getHyperPeriod_nonneg dagSet
  split <;> omega

/-- C3 witness: one single-node DAG of period 2 on one core. -/
theorem claim3_hyper_period_termination_witness :
    gedfSchedule [⟨[⟨0, [("execution_time", 1), ("period", 2)]⟩], []⟩]
        (processorNew 1) =
      getHyperPeriod [⟨[⟨0, [("execution_time", 1), ("period", 2)]⟩], []⟩] :=
  claim3_hyper_period_termination
    [⟨[⟨0, [("execution_time", 1), ("period", 2)]⟩], []⟩] (processorNew 1)
    (by decide)

theorem idleIdx_cons (c : CoreState) (rest : List CoreState) :
    idleIdx (c :: rest) =
      if c.isIdle then some 0 else (idleIdx rest).map (· + 1) := rfl

theorem filter_isIdle_listModify {cores : List CoreState} {i : Nat}
    (h : idleIdx cores = some i) {c2 : CoreState} (h2 : c2.isIdle = false) :
    ((listModify i (fun _ => c2) cores).filter CoreState.isIdle).length + 1 =
      (cores.filter CoreState.isIdle).length := by
  induction cores generalizing i with
  | nil => simp [idleIdx] at h
  | cons c rest ih =>
    rw [idleIdx_cons] at h
    by_cases hcidle : c.isIdle
    · rw [if_pos hcidle] at h
      injection h with h
      subst h
      simp only [listModify, List.filter_cons, h2, hcidle]
      simp
    · rw [if_neg hcidle] at h
      cases hrest : idleIdx rest with
      | none => rw [hrest] at h; simp at h
      | some j =>
        rw [hrest] at h
        have h3 : j + 1 = i := by simpa using h
        subst h3
        have hb : c.isIdle = false := by simpa using hcidle
        simp only [listModify, List.filter_cons, hb]
        simp only [Bool.false_eq_true, if_false]
        exact ih hrest

theorem allocate_idleNum {p : Processor} {i : Nat}
    (h : p.getIdleCoreIndex = some i) (node : NodeData) :
    (p.allocateSpecificCore i node).getIdleCoreNum + 1 = p.getIdleCoreNum :=
  filter_isIdle_listModify h rfl

theorem allocLoop_idle_le (rq : List NodeData) (p : Processor) :
    ((allocLoop rq p).2).getIdleCoreNum ≤ p.getIdleCoreNum := by
  induction rq generalizing p with
  | nil => exact Nat.le_refl _
  | cons x rest ih =>
    unfold allocLoop
    cases hidx : p.getIdleCoreIndex with
    | some i =>
      dsimp only
      have h1 := ih (p.allocateSpecificCore i x)
      have h2 := allocate_idleNum hidx x
      omega
    | none => exact Nat.le_refl _

/-- C8.  At the allocation phase of every tick of
`GlobalEDFScheduler::schedule()` (i.e. after `release_dag` and
`start_dag`), if the ready set is non-empty and some core is idle, then
`allocate_node` allocates at least one ready node: the number of idle
cores strictly decreases.  (Nodes of a DAG whose manager has
`is_released = false` never entered the ready set, so no separate
exception is needed.) -/
theorem claim8_work_conservation (s s2 : GEDFState)
    (hphase : s2 = startDag (releaseDag s))
    (hrq : s2.readyQueue ≠ [])
    (hidle : (s2.processor.getIdleCoreIndex).isSome) :
    (allocateNode s2).processor.getIdleCoreNum < s2.processor.getIdleCoreNum := by
  clear hphase
  obtain ⟨i, hi⟩ := Option.isSome_iff_exists.mp hidle
  unfold allocateNode
  dsimp only
  cases hq : s2.readyQueue with
  | nil => exact absurd hq hrq
  | cons x rest =>
    unfold allocLoop
    rw [hi]
    dsimp only
    have h1 := allocLoop_idle_le rest (s2.processor.allocateSpecificCore i x)
    have h2 := allocate_idleNum hi x
    omega

/-- C8 witness: a state whose ready set holds one node and whose single
core is idle; the release and start phases are identities on it. -/
theorem claim8_work_conservation_witness :
    (allocateNode ⟨[], processorNew 1, 0, [],
        [⟨0, [("execution_time", 2)]⟩]⟩).processor.getIdleCoreNum <
      (⟨[], processorNew 1, 0, [],
        [⟨0, [("execution_time", 2)]⟩]⟩ : GEDFState).processor.getIdleCoreNum :=
  claim8_work_conservation
    ⟨[], processorNew 1, 0, [], [⟨0, [("execution_time", 2)]⟩]⟩
    ⟨[], processorNew 1, 0, [], [⟨0, [("execution_time", 2)]⟩]⟩
    (by decide) (by decide) (by decide)

/-! ### Intra-DAG list scheduler (`src/lib/src/scheduler.rs:22-148`)

The subclass-supplied `sort_ready_queue` is a parameter; the fixed
priority key instantiates it.  The dummy-node insertion of
`graph_extension.rs` is modelled from the spec (§4.1); dummy nodes get
`id = index` as all ingested nodes do.  The inner
`while !any Done { process() }` loop can genuinely diverge (e.g. zero
cores), so the loop carries fuel and divergence is `none`. -/

/-- Modelled from the spec: `add_dummy_source_node` — appends a node
with `execution_time = 1` preceding every original source (§4.1), and
returns its index. -/
def addDummySource (d : DAGGraph) : DAGGraph × Nat :=
  let idx := d.nodes.length
  (⟨d.nodes ++ [⟨(idx : Int), [("execution_time", 1)]⟩],
    d.edges ++ d.getSourceNodes.map (fun j => (idx, j))⟩, idx)

/-- Modelled from the spec: `add_dummy_sink_node` — appends a node with
`execution_time = 1` following every current sink (§4.1). -/
def addDummySink (d : DAGGraph) : DAGGraph × Nat :=
  let idx := d.nodes.length
  (⟨d.nodes ++ [⟨(idx : Int), [("execution_time", 1)]⟩],
    d.edges ++ d.getSinkNodes.map (fun j => (j, idx))⟩, idx)

/-- Events of `DAGSchedulerLog` that `schedule()` writes. -/
inductive LogEvent where
  | allocating (nodeId : Int) (coreIndex : Nat) (time : Int)
  | finishing (nodeId : Int) (time : Int)
  | utilizationCalc (scheduleLength : Int)
deriving DecidableEq, Repr

/-- The working state of `DAGSchedulerBase::schedule`: the cloned DAG,
the cloned processor, the ready queue (`VecDeque<NodeData>`), the
execution order (`VecDeque<NodeIndex>` as indices), `current_time`, and
the log. -/
structure ListSchedState where
  dag : DAGGraph
  processor : Processor
  readyQueue : List NodeData
  execOrder : List Nat
  currentTime : Int
  log : List LogEvent
deriving DecidableEq, Repr

/-- The inner allocation loop (`scheduler.rs:59-74`): while an idle core
exists, pop the ready-queue front, allocate it there, log it unless it
is a dummy node, and append it to the execution order. -/
def allocPhaseAux (src sink : Nat) : List NodeData → ListSchedState → ListSchedState
  | [], st => { st with readyQueue := [] }
  | x :: rest, st =>
    match st.processor.getIdleCoreIndex with
    | some ci =>
      allocPhaseAux src sink rest
        { st with
          processor := st.processor.allocateSpecificCore ci x,
          execOrder := st.execOrder ++ [x.id.toNat],
          log := st.log ++
            (if x.id = (src : Int) ∨ x.id = (sink : Int) then []
             else [.allocating x.id ci (st.currentTime - 1)]) }
    | none => { st with readyQueue := x :: rest }

/-- `process(); current_time += 1;` then
`while no Done { process(); current_time += 1 }` (`scheduler.rs:76-87`),
with fuel. -/
def tickUntilDone : Nat → Processor → Int → Option (Processor × Int × List ProcessResult)
  | 0, _, _ => none
  | tfuel + 1, p, t =>
    let out := p.process
    if out.2.any ProcessResult.isDone then some (out.1, t + 1, out.2)
    else tickUntilDone tfuel out.1 (t + 1)

/-- The `Done` payloads of one tick, in core order
(`scheduler.rs:89-106`). -/
def finishedNodes (results : List ProcessResult) : List NodeData :=
  results.filterMap (fun r =>
    match r with
    | .done nd => some nd
    | .continued => none)

/-- `scheduler.rs:112-121`: for every finished node, increment
`pre_done_count` on each successor and push newly ready successors onto
the ready queue. -/
def processFinished (d : DAGGraph) (rq : List NodeData) (fs : List Nat) :
    DAGGraph × List NodeData :=
  fs.foldl
    (fun acc f =>
      (acc.1.sucs f).foldl
        (fun (acc : DAGGraph × List NodeData) j =>
          let d2 := acc.1.incrementPreDoneCount j
          if d2.isNodeReady j then (d2, acc.2 ++ [d2.node j]) else (d2, acc.2))
        acc)
    (d, rq)

/-- One iteration of the `loop` of `schedule()` (`scheduler.rs:55-122`),
with outer fuel and per-iteration tick fuel; `none` models divergence. -/
def listSchedLoop (sortRQ : List NodeData → List NodeData) (src sink : Nat)
    (tfuel : Nat) : Nat → ListSchedState → Option ListSchedState
  | 0, _ => none
  | fuel + 1, st =>
    let sta := allocPhaseAux src sink (sortRQ st.readyQueue) st
    match tickUntilDone tfuel sta.processor sta.currentTime with
    | none => none
    | some (p2, t2, results) =>
      let fs := finishedNodes results
      let fsIdx := fs.map (fun nd => nd.id.toNat)
      let lg2 := sta.log ++
        (fs.filter (fun nd => ¬ (nd.id = (src : Int) ∨ nd.id = (sink : Int)))).map
          (fun nd => LogEvent.finishing nd.id (t2 - 1))
      let stb : ListSchedState :=
        { sta with processor := p2, currentTime := t2, log := lg2 }
      if fsIdx.length = 1 ∧ (stb.dag.sucs (fsIdx.headD 0)).isEmpty then
        some stb
      else
        let out := processFinished stb.dag stb.readyQueue fsIdx
        listSchedLoop sortRQ src sink tfuel fuel
          { stb with dag := out.1, readyQueue := out.2 }

/-- `DAGSchedulerBase::schedule` (`scheduler.rs:35-140`): insert dummy
source and sink, seed the ready queue with the dummy source, run the
loop, trim the dummies off the execution order, and return
`(current_time - 2, execution_order)` together with the log (closed by
`calculate_utilization`). -/
def listSchedule (sortRQ : List NodeData → List NodeData) (fuel tfuel : Nat)
    (dag : DAGGraph) (processor : Processor) :
    Option (Int × List Nat × List LogEvent) :=
  let a1 := addDummySource dag
  let a2 := addDummySink a1.1
  let src := a1.2
  let sink := a2.2
  let st0 : ListSchedState := ⟨a2.1, processor, [a2.1.node src], [], 0, []⟩
  match listSchedLoop sortRQ src sink tfuel fuel st0 with
  | none => none
  | some st =>
    let eo := st.execOrder.dropLast.drop 1
    let len := st.currentTime - 2
    some (len, eo, st.log ++ [.utilizationCalc len])

/-- The fixed-priority instantiation of `sort_ready_queue` on node data:
ascending `priority`, missing priority as 999. -/
def sortByNodePriority (rq : List NodeData) : List NodeData :=
  stableSortByKey (fun n => (n.get "priority").getD 999) rq

/-! ### The scheduler object (for the frame property C9) -/

/-- The state a `DAGSchedulerBase` implementor holds across `schedule()`:
its DAG, its processor and its log (`scheduler.rs:29-34`). -/
structure DAGSchedulerState where
  dag : DAGGraph
  processor : Processor
  log : List LogEvent
deriving DecidableEq, Repr

/-- `schedule()` as a method: it reads `get_dag()` / `get_processor()`
clones, runs the list scheduler, and installs the produced log via
`set_log` (`scheduler.rs:37-40`, `135`); nothing else of the receiver is
written. -/
def schedulerRun (sortRQ : List NodeData → List NodeData) (fuel tfuel : Nat)
    (s : DAGSchedulerState) : Option (DAGSchedulerState × Int × List Nat) :=
  match listSchedule sortRQ fuel tfuel s.dag s.processor with
  | none => none
  | some (len, eo, lg) => some ({ s with log := lg }, len, eo)

/-- C9.  `DAGSchedulerBase::schedule()` operates on clones of the stored
DAG and processor (all dummy insertion and `pre_done_count` mutation
happens on the clone); on return the scheduler's DAG and processor are
unchanged and only the log field has been replaced. -/
theorem claim9_schedule_frame (sortRQ : List NodeData → List NodeData)
    (fuel tfuel : Nat) (s s2 : DAGSchedulerState) (r : Int × List Nat)
    (h : schedulerRun sortRQ fuel tfuel s = some (s2, r)) :
    s2.dag = s.dag ∧ s2.processor = s.processor ∧
    ∃ lg, listSchedule sortRQ fuel tfuel s.dag s.processor = some (r.1, r.2, lg) ∧
      s2.log = lg := by
  unfold schedulerRun at h
  cases hres : listSchedule sortRQ fuel tfuel s.dag s.processor with
  | none => rw [hres] at h; exact absurd h (by simp)
  | some out =>
    rw [hres] at h
    obtain ⟨len, eo, lg⟩ := out
    simp only [Option.some.injEq, Prod.mk.injEq] at h
    obtain ⟨h1, h2⟩ := h
    rw [← h1]
    refine ⟨rfl, rfl, lg, ?_, rfl⟩
    rw [← h2]

/-- C9 witness: a one-node DAG on one core; the run completes and leaves
the stored DAG and processor untouched. -/
theorem claim9_schedule_frame_witness :
    (schedulerRun sortByNodePriority 10 10
        ⟨⟨[⟨0, [("execution_time", 1)]⟩], []⟩, processorNew 1, []⟩).isSome ∧
    ∀ s2 r, schedulerRun sortByNodePriority 10 10
        ⟨⟨[⟨0, [("execution_time", 1)]⟩], []⟩, processorNew 1, []⟩ = some (s2, r) →
      s2.dag = ⟨[⟨0, [("execution_time", 1)]⟩], []⟩ ∧ s2.processor = processorNew 1 := by
  constructor
  · decide
  · intro s2 r h
    have := claim9_schedule_frame sortByNodePriority 10 10
      ⟨⟨[⟨0, [("execution_time", 1)]⟩], []⟩, processorNew 1, []⟩ s2 r h
    exact ⟨this.1, this.2.1⟩

/-! ### Bookkeeping for the list-scheduler correctness (C4) -/

/-- The node index a core is busy with, if any. -/
def runFn : CoreState → Option Nat
  | .running nd _ => some nd.id.toNat
  | .idle => none

/-- Indices of the nodes currently running on some core. -/
def runningIds (p : Processor) : List Nat :=
  p.cores.filterMap runFn

/-- A node index is finished when it has been allocated and is no longer
running. -/
def finishedAt (st : ListSchedState) (i : Nat) : Prop :=
  i ∈ st.execOrder ∧ i ∉ runningIds st.processor

instance (st : ListSchedState) (i : Nat) : Decidable (finishedAt st i) := by
  unfold finishedAt
  infer_instance

/-- `pre_done_count` of node `i`, default 0. -/
def preD (d : DAGGraph) (i : Nat) : Int :=
  ((d.node i).get "pre_done_count").getD 0

/-- In-degree over an explicit edge list (parallel edges counted). -/
def inDegE (E : List (Nat × Nat)) (i : Nat) : Nat :=
  (E.filter (fun e => e.2 = i)).length

/-- Number of in-edges of `i` whose source is finished. -/
def finPredCount (E : List (Nat × Nat)) (st : ListSchedState) (i : Nat) : Nat :=
  (E.filter (fun e => decide (e.2 = i ∧ finishedAt st e.1))).length

/-- Number of in-edges of `i` whose source lies in `fs`. -/
def fsPredCount (E : List (Nat × Nat)) (fs : List Nat) (i : Nat) : Nat :=
  (E.filter (fun e => decide (e.2 = i) && fs.contains e.1)).length

theorem incrementPreDoneCount_edges (d : DAGGraph) (j : Nat) :
    (d.incrementPreDoneCount j).edges = d.edges := rfl

theorem incrementPreDoneCount_length (d : DAGGraph) (j : Nat) :
    (d.incrementPreDoneCount j).nodes.length = d.nodes.length := by
  unfold DAGGraph.incrementPreDoneCount DAGGraph.addParam
  exact listModify_length j _ d.nodes

theorem node_addParam_id (d : DAGGraph) (i j : Nat) (k : String) (v : Int) :
    ((d.addParam j k v).node i).id = (d.node i).id := by
  by_cases hij : i = j
  · subst hij
    by_cases hlen : i < d.nodes.length
    · unfold DAGGraph.addParam DAGGraph.node
      rw [listModify_getD_self hlen]
    · unfold DAGGraph.addParam DAGGraph.node
      have h1 : d.nodes.length ≤ i := by omega
      rw [List.getD_eq_default _ _ (by rwa [listModify_length]),
        List.getD_eq_default _ _ h1]
  · rw [node_addParam_ne_node hij]

theorem preD_increment_self {d : DAGGraph} {j : Nat} (hj : j < d.nodes.length) :
    preD (d.incrementPreDoneCount j) j = preD d j + 1 := by
  unfold preD DAGGraph.incrementPreDoneCount
  rw [node_addParam_self hj]
  rfl

theorem preD_increment_other {d : DAGGraph} {i j : Nat} (h : i ≠ j) :
    preD (d.incrementPreDoneCount j) i = preD d i := by
  unfold preD DAGGraph.incrementPreDoneCount
  rw [node_addParam_ne_node h]

theorem node_increment_id (d : DAGGraph) (i j : Nat) :
    ((d.incrementPreDoneCount j).node i).id = (d.node i).id :=
  node_addParam_id d i j _ _

theorem isNodeReady_iff {E : List (Nat × Nat)} {d : DAGGraph} (hE : d.edges = E)
    (j : Nat) : d.isNodeReady j = true ↔ preD d j = (inDegE E j : Int) := by
  unfold DAGGraph.isNodeReady preD DAGGraph.inDegree inDegE
  rw [hE]
  simp

/-- Reachability of the unique sink along edges. -/
inductive ReachSink (E : List (Nat × Nat)) (sink : Nat) : Nat → Prop where
  | base : ReachSink E sink sink
  | step {i j : Nat} (he : (i, j) ∈ E) (hr : ReachSink E sink j) : ReachSink E sink i

/-- The run invariant of `DAGSchedulerBase::schedule` over the augmented
DAG: `E` is its (constant) edge list, `N` its node count, `src`/`sink`
the dummy indices. -/
structure SInv (E : List (Nat × Nat)) (N src sink : Nat) (st : ListSchedState) :
    Prop where
  hE : st.dag.edges = E
  hlen : st.dag.nodes.length = N
  hids : ∀ i, i < N → (st.dag.node i).id = (i : Int)
  execNd : st.execOrder.Nodup
  execLt : ∀ i ∈ st.execOrder, i < N
  runSub : ∀ i ∈ runningIds st.processor, i ∈ st.execOrder
  runNd : (runningIds st.processor).Nodup
  rqIds : ∀ nd ∈ st.readyQueue, nd.id = (nd.id.toNat : Int) ∧ nd.id.toNat < N
  rqNotExec : ∀ nd ∈ st.readyQueue, nd.id.toNat ∉ st.execOrder
  rqPreds : ∀ nd ∈ st.readyQueue, ∀ e ∈ E, e.2 = nd.id.toNat → finishedAt st e.1
  rqNd : (st.readyQueue.map (fun nd => nd.id.toNat)).Nodup
  rqReady : ∀ nd ∈ st.readyQueue, preD st.dag nd.id.toNat =
    (inDegE E nd.id.toNat : Int)
  pre_eq : ∀ i, i < N → preD st.dag i = (finPredCount E st i : Int)
  execPreds : ∀ i ∈ st.execOrder, ∀ e ∈ E, e.2 = i → finishedAt st e.1
  sinkFull : sink ∈ st.execOrder → ∀ i, i < N → i ∈ st.execOrder
  sinkLast : sink ∈ st.execOrder → st.execOrder.getLast? = some sink
  headSrc : st.execOrder ≠ [] → st.execOrder.head? = some src

/-- The graph-shape hypotheses of the augmented DAG, fixed across the
run. -/
structure GShape (E : List (Nat × Nat)) (N src sink : Nat) (rank : Nat → Nat) :
    Prop where
  hedge : ∀ e ∈ E, e.1 < N ∧ e.2 < N ∧ rank e.1 < rank e.2
  hindeg0 : ∀ i, i < N → inDegE E i = 0 → i = src
  hsucs : ∀ i, i < N → i ≠ sink → ∃ e ∈ E, e.1 = i
  hsrc : src < N
  hsink : sink < N

theorem foldl_max_init_le (l : List Nat) : ∀ acc, acc ≤ l.foldl max acc := by
  induction l with
  | nil => intro acc; exact Nat.le_refl _
  | cons x t ih =>
    intro acc
    calc acc ≤ max acc x := Nat.le_max_left _ _
    _ ≤ t.foldl max (max acc x) := ih _

theorem mem_le_foldl_max {l : List Nat} {x : Nat} (h : x ∈ l) :
    ∀ acc, x ≤ l.foldl max acc := by
  induction l with
  | nil => simp at h
  | cons y t ih =>
    intro acc
    rcases List.mem_cons.mp h with rfl | h2
    · calc x ≤ max acc x := Nat.le_max_right _ _
      _ ≤ t.foldl max (max acc x) := foldl_max_init_le t _
    · exact ih h2 _

/-- Every in-range node reaches the sink: follow successors; ranks
strictly increase and are bounded, and only the sink lacks a
successor. -/
theorem all_reach_sink {E : List (Nat × Nat)} {N src sink : Nat} {rank : Nat → Nat}
    (G : GShape E N src sink rank) :
    ∀ i, i < N → ReachSink E sink i := by
  have hbound : ∀ i, i < N → rank i ≤ ((List.range N).map rank).foldl max 0 := by
    intro i hi
    exact mem_le_foldl_max (List.mem_map_of_mem rank (List.mem_range.mpr hi)) 0
  have main : ∀ (m : Nat) (i : Nat), i < N →
      ((List.range N).map rank).foldl max 0 + 1 - rank i ≤ m → ReachSink E sink i := by
    intro m
    induction m with
    | zero =>
      intro i hi hm
      have := hbound i hi
      omega
    | succ m ih =>
      intro i hi hm
      by_cases hisink : i = sink
      · rw [hisink]; exact .base
      · obtain ⟨e, heE, he1⟩ := G.hsucs i hi hisink
        obtain ⟨h1, h2, h3⟩ := G.hedge e heE
        rw [he1] at h3
        refine ReachSink.step (j := e.2) ?_ (ih e.2 h2 ?_)
        · rw [← he1]; exact heE
        · have := hbound i hi
          omega
  exact fun i hi => main (((List.range N).map rank).foldl max 0 + 1) i hi (by omega)

theorem filterMap_run_listModify {cores : List CoreState} {i : Nat}
    (h : idleIdx cores = some i) (c2 : CoreState) {y : Nat}
    (h2 : runFn c2 = some y) :
    (List.filterMap runFn (listModify i (fun _ => c2) cores)).Perm
      (y :: List.filterMap runFn cores) := by
  induction cores generalizing i with
  | nil => simp [idleIdx] at h
  | cons c rest ih =>
    rw [idleIdx_cons] at h
    by_cases hcidle : c.isIdle
    · rw [if_pos hcidle] at h
      injection h with h
      subst h
      cases c with
      | running nd r => simp [CoreState.isIdle] at hcidle
      | idle =>
        simp only [listModify, List.filterMap_cons, h2]
        exact List.Perm.refl _
    · rw [if_neg hcidle] at h
      cases hrest : idleIdx rest with
      | none => rw [hrest] at h; simp at h
      | some j =>
        rw [hrest] at h
        have h3 : j + 1 = i := by simpa using h
        subst h3
        cases c with
        | idle => simp [CoreState.isIdle] at hcidle
        | running nd r =>
          simp only [listModify, List.filterMap_cons, runFn]
          refine ((ih hrest).cons nd.id.toNat).trans ?_
          exact List.Perm.swap _ _ _

theorem runningIds_alloc_perm {p : Processor} {i : Nat}
    (h : p.getIdleCoreIndex = some i) (x : NodeData) :
    (runningIds (p.allocateSpecificCore i x)).Perm (x.id.toNat :: runningIds p) :=
  filterMap_run_listModify h _ rfl

theorem process_running_perm_list (cores : List CoreState) :
    (runningIds ⟨cores⟩).Perm
      (runningIds (Processor.process ⟨cores⟩).1 ++
        (finishedNodes (Processor.process ⟨cores⟩).2).map (fun nd => nd.id.toNat)) := by
  induction cores with
  | nil => simp [Processor.process, runningIds, finishedNodes]
  | cons c rest ih =>
    simp only [Processor.process, List.map_cons, runningIds, finishedNodes,
      List.filterMap_cons] at ih ⊢
    cases c with
    | idle =>
      simp only [coreStep, runFn]
      exact ih
    | running nd r =>
      by_cases hr : r - 1 = 0
      · simp only [coreStep, if_pos hr, runFn]
        refine (ih.cons nd.id.toNat).trans ?_
        exact (List.perm_middle).symm
      · simp only [coreStep, if_neg hr, runFn]
        exact ih.cons nd.id.toNat

theorem process_running_perm (p : Processor) :
    (runningIds p).Perm
      (runningIds (p.process).1 ++
        (finishedNodes (p.process).2).map (fun nd => nd.id.toNat)) := by
  cases p with
  | mk cores => exact process_running_perm_list cores

theorem any_isDone_iff (results : List ProcessResult) :
    results.any ProcessResult.isDone = true ↔ finishedNodes results ≠ [] := by
  induction results with
  | nil => simp [finishedNodes]
  | cons r rest ih =>
    cases r with
    | continued => simpa [finishedNodes, ProcessResult.isDone] using ih
    | done nd => simp [finishedNodes, ProcessResult.isDone]

theorem tickUntilDone_spec :
    ∀ (tfuel : Nat) (p : Processor) (t : Int) (p2 : Processor) (t2 : Int)
      (res : List ProcessResult),
    tickUntilDone tfuel p t = some (p2, t2, res) →
    (runningIds p).Perm
        (runningIds p2 ++ (finishedNodes res).map (fun nd => nd.id.toNat)) ∧
      finishedNodes res ≠ [] := by
  intro tfuel
  induction tfuel with
  | zero => intro p t p2 t2 res h; exact absurd h (by simp [tickUntilDone])
  | succ tfuel ih =>
    intro p t p2 t2 res h
    unfold tickUntilDone at h
    dsimp only at h
    split at h <;> rename_i hany
    · simp only [Option.some.injEq, Prod.mk.injEq] at h
      obtain ⟨h1, h2, h3⟩ := h
      subst h1; subst h3
      exact ⟨process_running_perm p, (any_isDone_iff _).mp hany⟩
    · have hsp := ih (p.process).1 (t + 1) p2 t2 res h
      refine ⟨?_, hsp.2⟩
      have hz : finishedNodes (p.process).2 = [] := by
        by_contra hne
        exact hany ((any_isDone_iff _).mpr hne)
      have := process_running_perm p
      rw [hz] at this
      simp only [List.map_nil, List.append_nil] at this
      exact this.trans hsp.1

theorem finPredCount_congr {E : List (Nat × Nat)} {st1 st2 : ListSchedState}
    (h : ∀ j, finishedAt st1 j ↔ finishedAt st2 j) (i : Nat) :
    finPredCount E st1 i = finPredCount E st2 i := by
  unfold finPredCount
  rw [List.filter_congr]
  intro e he
  exact decide_eq_decide.mpr (by rw [h e.1])

/-- Finished nodes propagate backwards from the sink: once every
predecessor of the sink is finished, every non-sink node is. -/
theorem reach_finished {E : List (Nat × Nat)} {sink : Nat} {stv : ListSchedState}
    (execPreds : ∀ i ∈ stv.execOrder, ∀ e ∈ E, e.2 = i → finishedAt stv e.1)
    (hsinkpred : ∀ e ∈ E, e.2 = sink → finishedAt stv e.1) :
    ∀ i, ReachSink E sink i → i ≠ sink → finishedAt stv i := by
  intro i hreach
  induction hreach with
  | base => intro h; exact absurd rfl h
  | step he hr ih =>
    intro hne
    rename_i a b
    by_cases hb : b = sink
    · subst hb
      exact hsinkpred _ he rfl
    · have hfb := ih hb
      exact execPreds b hfb.1 (a, b) he rfl

/-- One allocation of `allocPhaseAux` preserves the invariant: the popped
ready node is appended to the execution order and starts running. -/
theorem allocStep_sinv {E : List (Nat × Nat)} {N src sink : Nat} {rank : Nat → Nat}
    (G : GShape E N src sink rank) {st : ListSchedState} {x : NodeData}
    {rest : List NodeData} {ci : Nat}
    (hinv : SInv E N src sink { st with readyQueue := x :: rest })
    (hci : st.processor.getIdleCoreIndex = some ci) (lg2 : List LogEvent) :
    SInv E N src sink
      { st with processor := st.processor.allocateSpecificCore ci x,
                execOrder := st.execOrder ++ [x.id.toNat],
                log := lg2,
                readyQueue := rest } := by
  obtain ⟨hE, hlen, hids, execNd, execLt, runSub, runNd, rqIds, rqNotExec, rqPreds,
    rqNd, rqReady, pre_eq, execPreds, sinkFull, sinkLast, headSrc⟩ := hinv
  simp only at hE hlen hids execNd execLt runSub runNd rqIds rqNotExec rqPreds rqNd
  simp only at rqReady pre_eq execPreds sinkFull sinkLast headSrc
  have hxmem : x ∈ x :: rest := List.mem_cons_self x rest
  have hxid := rqIds x hxmem
  have hxe : x.id.toNat ∉ st.execOrder := rqNotExec x hxmem
  have hrunperm := runningIds_alloc_perm hci x
  have hrunold : x.id.toNat ∉ runningIds st.processor := fun hmem => hxe (runSub _ hmem)
  have hrqnd2 : x.id.toNat ∉ rest.map (fun nd => nd.id.toNat) ∧
      (rest.map (fun nd => nd.id.toNat)).Nodup :=
    List.nodup_cons.mp (by simpa using rqNd)
  have hfin : ∀ i, finishedAt
      { st with processor := st.processor.allocateSpecificCore ci x,
                execOrder := st.execOrder ++ [x.id.toNat],
                log := lg2, readyQueue := rest } i ↔
      finishedAt { st with readyQueue := x :: rest } i := by
    intro i
    unfold finishedAt
    simp only
    by_cases hi : i = x.id.toNat
    · subst hi
      constructor
      · rintro ⟨-, hnr⟩
        exact absurd (hrunperm.mem_iff.mpr (List.mem_cons_self _ _)) hnr
      · rintro ⟨hmem, -⟩
        exact absurd hmem hxe
    · constructor
      · rintro ⟨hmem, hnr⟩
        rcases List.mem_append.mp hmem with hmem2 | hmem2
        · refine ⟨hmem2, fun hr => hnr ?_⟩
          exact hrunperm.mem_iff.mpr (List.mem_cons_of_mem _ hr)
        · simp at hmem2
          omega
      · rintro ⟨hmem, hnr⟩
        refine ⟨List.mem_append.mpr (Or.inl hmem), fun hr => ?_⟩
        rcases List.mem_cons.mp (hrunperm.mem_iff.mp hr) with h2 | h2
        · exact hi h2
        · exact hnr h2
  refine ⟨hE, hlen, hids, ?_, ?_, ?_, ?_, ?_, ?_, ?_, ?_, ?_, ?_, ?_, ?_, ?_, ?_⟩
  · simp only [List.nodup_append, List.nodup_cons, List.nodup_nil]
    refine ⟨execNd, ⟨by simp, trivial⟩, ?_⟩
    intro a ha hb
    simp at hb
    subst hb
    exact hxe ha
  · intro i hi
    rcases List.mem_append.mp hi with h2 | h2
    · exact execLt i h2
    · simp at h2
      omega
  · intro i hi
    simp only at hi
    rcases List.mem_cons.mp (hrunperm.mem_iff.mp hi) with h2 | h2
    · subst h2
      exact List.mem_append.mpr (Or.inr (by simp))
    · exact List.mem_append.mpr (Or.inl (runSub i h2))
  · exact (hrunperm.symm).nodup (List.nodup_cons.mpr ⟨hrunold, runNd⟩)
  · intro nd hnd
    exact rqIds nd (List.mem_cons_of_mem x hnd)
  · intro nd hnd hmem
    rcases List.mem_append.mp hmem with h2 | h2
    · exact rqNotExec nd (List.mem_cons_of_mem x hnd) h2
    · simp at h2
      exact hrqnd2.1 (h2 ▸ List.mem_map_of_mem (fun nd => nd.id.toNat) hnd)
  · intro nd hnd e he h2
    exact (hfin e.1).mpr (rqPreds nd (List.mem_cons_of_mem x hnd) e he h2)
  · exact hrqnd2.2
  · intro nd hnd
    exact rqReady nd (List.mem_cons_of_mem x hnd)
  · intro i hi
    rw [finPredCount_congr hfin i]
    exact pre_eq i hi
  · intro i hi e he h2
    rcases List.mem_append.mp hi with h3 | h3
    · exact (hfin e.1).mpr (execPreds i h3 e he h2)
    · simp at h3
      subst h3
      exact (hfin e.1).mpr (rqPreds x hxmem e he h2)
  · intro hsink i hi
    rcases List.mem_append.mp hsink with h3 | h3
    · exact List.mem_append.mpr (Or.inl (sinkFull h3 i hi))
    · simp at h3
      by_cases hieq : i = sink
      · subst hieq
        exact List.mem_append.mpr (Or.inr (by simp [h3]))
      · have hsinkpred : ∀ e ∈ E, e.2 = sink → finishedAt
            { st with readyQueue := x :: rest } e.1 := by
          intro e he h2
          exact rqPreds x hxmem e he (by rw [← h3]; exact h2)
        have hfini := reach_finished execPreds hsinkpred i (all_reach_sink G i hi) hieq
        exact List.mem_append.mpr (Or.inl hfini.1)
  · intro hsink
    rcases List.mem_append.mp hsink with h3 | h3
    · exact absurd (sinkFull h3 x.id.toNat hxid.2) hxe
    · simp at h3
      rw [h3]
      exact List.getLast?_concat _
  · intro hne
    by_cases hexec : st.execOrder = []
    · simp only [hexec, List.nil_append, List.head?_cons]
      have hzero : finPredCount E { st with readyQueue := x :: rest } x.id.toNat = 0 := by
        unfold finPredCount
        rw [List.length_eq_zero, List.filter_eq_nil]
        intro e he
        simp only [decide_eq_true_eq, not_and]
        intro h2 hf
        unfold finishedAt at hf
        rw [hexec] at hf
        simp at hf
      have h1 := pre_eq x.id.toNat hxid.2
      rw [hzero] at h1
      have h2 := rqReady x hxmem
      have h3 : (inDegE E x.id.toNat : Int) = 0 := by omega
      have hdeg : inDegE E x.id.toNat = 0 := by exact_mod_cast h3
      rw [G.hindeg0 x.id.toNat hxid.2 hdeg]
    · rw [List.head?_append, headSrc hexec]
      rfl

/-- The whole allocation phase preserves the invariant. -/
theorem allocAux_sinv {E : List (Nat × Nat)} {N src sink : Nat} {rank : Nat → Nat}
    (G : GShape E N src sink rank) :
    ∀ (rq : List NodeData) (st : ListSchedState),
    SInv E N src sink { st with readyQueue := rq } →
    SInv E N src sink (allocPhaseAux src sink rq st) := by
  intro rq
  induction rq with
  | nil => intro st h; exact h
  | cons x rest ih =>
    intro st h
    unfold allocPhaseAux
    cases hci : st.processor.getIdleCoreIndex with
    | none => exact h
    | some ci =>
      dsimp only
      exact ih _ (allocStep_sinv G h hci _)

/-- Sorting the ready queue (a permutation) preserves the invariant. -/
theorem sort_sinv {E : List (Nat × Nat)} {N src sink : Nat}
    {sortRQ : List NodeData → List NodeData}
    (hperm : ∀ l : List NodeData, (sortRQ l).Perm l)
    {st : ListSchedState} (h : SInv E N src sink st) :
    SInv E N src sink { st with readyQueue := sortRQ st.readyQueue } := by
  obtain ⟨hE, hlen, hids, execNd, execLt, runSub, runNd, rqIds, rqNotExec, rqPreds,
    rqNd, rqReady, pre_eq, execPreds, sinkFull, sinkLast, headSrc⟩ := h
  have hp := hperm st.readyQueue
  refine ⟨hE, hlen, hids, execNd, execLt, runSub, runNd, ?_, ?_, ?_, ?_, ?_,
    pre_eq, execPreds, sinkFull, sinkLast, headSrc⟩
  · intro nd hnd
    exact rqIds nd (hp.mem_iff.mp hnd)
  · intro nd hnd
    exact rqNotExec nd (hp.mem_iff.mp hnd)
  · intro nd hnd
    exact rqPreds nd (hp.mem_iff.mp hnd)
  · exact ((hp.map (fun nd => nd.id.toNat)).symm).nodup rqNd
  · intro nd hnd
    exact rqReady nd (hp.mem_iff.mp hnd)

theorem length_filter_mono {l : List α} {p q : α → Bool}
    (h : ∀ a ∈ l, p a = true → q a = true) :
    (l.filter p).length ≤ (l.filter q).length := by
  induction l with
  | nil => exact Nat.le_refl _
  | cons x t ih =>
    have ht : ∀ a ∈ t, p a = true → q a = true :=
      fun a ha => h a (List.mem_cons_of_mem x ha)
    cases hp : p x
    · cases hq : q x
      · simp only [List.filter_cons, hp, hq]
        simpa using ih ht
      · simp only [List.filter_cons, hp, hq]
        simpa using Nat.le_succ_of_le (ih ht)
    · simp only [List.filter_cons, hp, h x (List.mem_cons_self x t) hp]
      simpa using Nat.succ_le_succ (ih ht)

theorem length_filter_full {l : List α} {p q : α → Bool}
    (h : ∀ a ∈ l, p a = true → q a = true)
    (hlen : (l.filter q).length ≤ (l.filter p).length) :
    ∀ a ∈ l, q a = true → p a = true := by
  induction l with
  | nil => intro a ha; simp at ha
  | cons x t ih =>
    have ht : ∀ a ∈ t, p a = true → q a = true :=
      fun a ha => h a (List.mem_cons_of_mem x ha)
    intro a ha hqa
    rcases List.mem_cons.mp ha with rfl | ha2
    · by_contra hpa
      have hpa2 : p a = false := by simpa using hpa
      simp only [List.filter_cons, hpa2, hqa] at hlen
      simp only [List.length_cons, if_true, if_false, Bool.false_eq_true] at hlen
      have := length_filter_mono ht
      omega
    · cases hp : p x
      · cases hq : q x
        · simp only [List.filter_cons, hp, hq] at hlen
          simp only [Bool.false_eq_true, if_false] at hlen
          exact ih ht hlen a ha2 hqa
        · simp only [List.filter_cons, hp, hq] at hlen
          simp only [Bool.false_eq_true, if_false, if_true, List.length_cons] at hlen
          exact ih ht (by omega) a ha2 hqa
      · simp only [List.filter_cons, hp, h x (List.mem_cons_self x t) hp] at hlen
        simp only [if_true, List.length_cons] at hlen
        exact ih ht (by omega) a ha2 hqa

theorem length_filter_or_disjoint {l : List α} {p q : α → Bool}
    (h : ∀ a ∈ l, ¬(p a = true ∧ q a = true)) :
    (l.filter (fun a => p a || q a)).length =
      (l.filter p).length + (l.filter q).length := by
  induction l with
  | nil => rfl
  | cons x t ih =>
    have ht : ∀ a ∈ t, ¬(p a = true ∧ q a = true) :=
      fun a ha => h a (List.mem_cons_of_mem x ha)
    cases hp : p x
    · cases hq : q x
      · simp only [List.filter_cons, hp, hq, Bool.false_or]
        simp only [Bool.false_eq_true, if_false]
        exact ih ht
      · simp only [List.filter_cons, hp, hq, Bool.false_or]
        simp only [Bool.false_eq_true, if_false, if_true, List.length_cons]
        rw [ih ht]
        omega
    · have hq : q x = false := by
        by_contra hq2
        exact h x (List.mem_cons_self x t) ⟨hp, by simpa using hq2⟩
      simp only [List.filter_cons, hp, hq, Bool.true_or]
      simp only [Bool.false_eq_true, if_false, if_true, List.length_cons]
      rw [ih ht]
      omega

theorem fsPredCount_append {E : List (Nat × Nat)} (l₁ l₂ : List Nat)
    (hdisj : ∀ f, f ∈ l₁ → f ∉ l₂) (i : Nat) :
    fsPredCount E (l₁ ++ l₂) i = fsPredCount E l₁ i + fsPredCount E l₂ i := by
  unfold fsPredCount
  rw [show (fun e : Nat × Nat => decide (e.2 = i) && (l₁ ++ l₂).contains e.1) =
      (fun e : Nat × Nat => (decide (e.2 = i) && l₁.contains e.1) ||
        (decide (e.2 = i) && l₂.contains e.1)) from ?_]
  · refine length_filter_or_disjoint ?_
    intro e he ⟨h1, h2⟩
    simp only [Bool.and_eq_true, List.elem_iff, decide_eq_true_eq] at h1 h2
    exact hdisj e.1 h1.2 h2.2
  · funext e
    have hc : ((l₁ ++ l₂).contains e.1) = (l₁.contains e.1 || l₂.contains e.1) := by
      by_cases h1 : e.1 ∈ l₁ <;> by_cases h2 : e.1 ∈ l₂ <;>
        simp [List.elem_iff, h1, h2]
    rw [hc, Bool.and_or_distrib_left]

theorem count_map_snd_filter (E : List (Nat × Nat)) (f i : Nat) :
    ((E.filter (fun e => decide (e.1 = f))).map (fun e => e.2)).count i =
      (E.filter (fun e => decide (e.2 = i) && decide (e.1 = f))).length := by
  induction E with
  | nil => rfl
  | cons e t ih =>
    cases h1 : decide (e.1 = f)
    · cases h2 : decide (e.2 = i) <;>
        simp only [List.filter_cons, h1, h2, Bool.and_false, Bool.and_true,
          Bool.false_eq_true, if_false] <;> exact ih
    · cases h2 : decide (e.2 = i)
      · have hne : ¬ e.2 = i := of_decide_eq_false h2
        simp only [List.filter_cons, h1, h2, Bool.and_true, Bool.false_eq_true,
          if_false, if_true, List.map_cons, List.count_cons]
        rw [ih]
        simp [hne]
      · have heq : e.2 = i := of_decide_eq_true h2
        simp only [List.filter_cons, h1, h2, Bool.and_true, if_true,
          List.map_cons, List.count_cons, List.length_cons]
        rw [ih]
        simp [heq]

/-- An element count in a successor list equals the matching edge count. -/
theorem count_sucs_eq {E : List (Nat × Nat)} {d : DAGGraph} (hE : d.edges = E)
    (f i : Nat) :
    (d.sucs f).count i =
      (E.filter (fun e => decide (e.2 = i) && decide (e.1 = f))).length := by
  unfold DAGGraph.sucs
  rw [hE]
  exact count_map_snd_filter E f i

/-- `fsPredCount` of a single finished node as an edge filter. -/
theorem fsPredCount_single {E : List (Nat × Nat)} (f i : Nat) :
    fsPredCount E [f] i =
      (E.filter (fun e => decide (e.2 = i) && decide (e.1 = f))).length := by
  unfold fsPredCount
  rw [List.filter_congr]
  intro e he
  have hc : ([f].contains e.1) = decide (e.1 = f) := by
    by_cases h : e.1 = f <;> simp [List.elem_iff, h]
  rw [hc]

theorem fsPredCount_nil (E : List (Nat × Nat)) (i : Nat) :
    fsPredCount E [] i = 0 := by
  unfold fsPredCount
  simp [List.elem_iff]

theorem mem_sucs {d : DAGGraph} {f j : Nat} :
    j ∈ d.sucs f ↔ (f, j) ∈ d.edges := by
  unfold DAGGraph.sucs
  simp only [List.mem_map, List.mem_filter, decide_eq_true_eq]
  constructor
  · rintro ⟨e, ⟨he, h1⟩, h2⟩
    have : e = (f, j) := by
      cases e
      simp_all
    rwa [this] at he
  · intro h
    exact ⟨(f, j), ⟨h, rfl⟩, rfl⟩

theorem sucs_congr {d1 d2 : DAGGraph} (h : d1.edges = d2.edges) (f : Nat) :
    d1.sucs f = d2.sucs f := by
  unfold DAGGraph.sucs
  rw [h]

/-- Total successor count over a duplicate-free finished list equals the
finished-predecessor edge count. -/
theorem count_flatMap_sucs {E : List (Nat × Nat)} {d : DAGGraph}
    (hE : d.edges = E) {fs : List Nat} (hnd : fs.Nodup) (i : Nat) :
    ((fs.flatMap d.sucs).count i) = fsPredCount E fs i := by
  induction fs with
  | nil => simp [fsPredCount_nil]
  | cons f t ih =>
    have hft : f ∉ t := (List.nodup_cons.mp hnd).1
    have htnd : t.Nodup := (List.nodup_cons.mp hnd).2
    have hsplit : fsPredCount E (f :: t) i =
        fsPredCount E [f] i + fsPredCount E t i := by
      have := fsPredCount_append (E := E) [f] t
        (by intro x hx; simp only [List.mem_singleton] at hx; rwa [hx]) i
      simpa using this
    rw [List.flatMap_cons, List.count_append, ih htnd, hsplit,
      count_sucs_eq hE, fsPredCount_single]

/-- The body of the successor fold of `processFinished`. -/
def pfStep (acc : DAGGraph × List NodeData) (j : Nat) : DAGGraph × List NodeData :=
  let d2 := acc.1.incrementPreDoneCount j
  if d2.isNodeReady j then (d2, acc.2 ++ [d2.node j]) else (d2, acc.2)

theorem pfStep_edges (acc : DAGGraph × List NodeData) (j : Nat) :
    (pfStep acc j).1.edges = acc.1.edges := by
  unfold pfStep
  dsimp only
  split <;> rfl

theorem foldl_pfStep_edges (js : List Nat) :
    ∀ acc, ((js.foldl pfStep acc).1).edges = acc.1.edges := by
  induction js with
  | nil => intro acc; rfl
  | cons j t ih =>
    intro acc
    rw [List.foldl_cons, ih, pfStep_edges]

/-- `processFinished` flattened into a single fold over the concatenated
successor lists. -/
theorem processFinished_flatten (d : DAGGraph) (rq : List NodeData)
    (fs : List Nat) :
    processFinished d rq fs = (fs.flatMap d.sucs).foldl pfStep (d, rq) := by
  have aux : ∀ (fs : List Nat) (acc : DAGGraph × List NodeData),
      acc.1.edges = d.edges →
      fs.foldl (fun acc f => (acc.1.sucs f).foldl pfStep acc) acc =
        (fs.flatMap d.sucs).foldl pfStep acc := by
    intro fs
    induction fs with
    | nil => intro acc _; rfl
    | cons f t ih =>
      intro acc hacc
      rw [List.foldl_cons, List.flatMap_cons, List.foldl_append,
        sucs_congr hacc f]
      exact ih _ (by rw [foldl_pfStep_edges]; exact hacc)
  exact aux fs (d, rq) rfl

/-- The invariant of the flattened `processFinished` fold after a
processed prefix `procd` of the successor list. -/
structure PFacts (E : List (Nat × Nat)) (N : Nat) (stb : ListSchedState)
    (procd : List Nat) (acc : DAGGraph × List NodeData) : Prop where
  f1 : acc.1.edges = E
  f2 : acc.1.nodes.length = N
  f3 : ∀ i, i < N → (acc.1.node i).id = (i : Int)
  f4 : ∀ i, i < N → preD acc.1 i = preD stb.dag i + (procd.count i : Int)
  f5 : ∀ nd ∈ acc.2, nd.id = (nd.id.toNat : Int) ∧ nd.id.toNat < N
  f6 : ∀ nd ∈ acc.2, nd.id.toNat ∉ stb.execOrder
  f7 : ∀ nd ∈ acc.2, ∀ e ∈ E, e.2 = nd.id.toNat → finishedAt stb e.1
  f8 : (acc.2.map (fun nd => nd.id.toNat)).Nodup
  f9 : ∀ nd ∈ acc.2, preD acc.1 nd.id.toNat = (inDegE E nd.id.toNat : Int)

theorem finPredCount_le_inDegE (E : List (Nat × Nat)) (stb : ListSchedState)
    (i : Nat) : finPredCount E stb i ≤ inDegE E i := by
  unfold finPredCount inDegE
  refine length_filter_mono ?_
  intro e he h
  have := of_decide_eq_true h
  exact decide_eq_true this.1

/-- The flattened `processFinished` fold preserves `PFacts`, pushing a
successor exactly when its counter reaches the in-degree, which forces
all its predecessors to be finished. -/
theorem pfFold_facts {E : List (Nat × Nat)} {N : Nat} {stb : ListSchedState}
    {js : List Nat}
    (hjs_lt : ∀ j ∈ js, j < N)
    (hjsNotExec : ∀ j ∈ js, j ∉ stb.execOrder)
    (hcount : ∀ i, i < N →
      preD stb.dag i + (js.count i : Int) = (finPredCount E stb i : Int)) :
    ∀ (rem procd : List Nat) (acc : DAGGraph × List NodeData),
    js = procd ++ rem → PFacts E N stb procd acc →
    PFacts E N stb js (rem.foldl pfStep acc) := by
  intro rem
  induction rem with
  | nil =>
    intro procd acc hsplit hacc
    rw [List.foldl_nil]
    have hpj : procd = js := by rw [hsplit, List.append_nil]
    rwa [hpj] at hacc
  | cons j rem ih =>
    intro procd acc hsplit hacc
    rw [List.foldl_cons]
    refine ih (procd ++ [j]) (pfStep acc j)
      (by rw [hsplit, List.append_assoc]; rfl) ?_
    have hj_in : j ∈ js := by
      rw [hsplit]
      exact List.mem_append_right _ (List.mem_cons_self j rem)
    have hjN : j < N := hjs_lt j hj_in
    have hjlen : j < acc.1.nodes.length := by rw [hacc.f2]; exact hjN
    have hd2E : (acc.1.incrementPreDoneCount j).edges = E := by
      rw [incrementPreDoneCount_edges]; exact hacc.f1
    have hd2len : (acc.1.incrementPreDoneCount j).nodes.length = N := by
      rw [incrementPreDoneCount_length]; exact hacc.f2
    have hd2ids : ∀ i, i < N →
        (((acc.1.incrementPreDoneCount j)).node i).id = (i : Int) := by
      intro i hi
      rw [node_increment_id]
      exact hacc.f3 i hi
    have hpre_self : preD (acc.1.incrementPreDoneCount j) j = preD acc.1 j + 1 :=
      preD_increment_self hjlen
    have hc1 : js.count j = procd.count j + 1 + rem.count j := by
      rw [hsplit, List.count_append, List.count_cons_self]
      omega
    have hbound : preD (acc.1.incrementPreDoneCount j) j ≤ (inDegE E j : Int) := by
      have h1 := hcount j hjN
      have h2 := finPredCount_le_inDegE E stb j
      have h3 := hacc.f4 j hjN
      rw [hpre_self, h3]
      omega
    have hnotin : ∀ nd ∈ acc.2, nd.id.toNat ≠ j := by
      intro nd hnd heq
      have h9 := hacc.f9 nd hnd
      rw [heq] at h9
      rw [hpre_self, h9] at hbound
      omega
    have hcnt4 : ∀ i, i < N → ((procd ++ [j]).count i : Int) =
        (procd.count i : Int) + (if i = j then 1 else 0) := by
      intro i hi
      rw [List.count_append]
      by_cases hij : i = j
      · subst hij; simp
      · simp [List.count_singleton, hij]
    cases hready : ((acc.1.incrementPreDoneCount j)).isNodeReady j with
    | false =>
      have hstep : pfStep acc j = (acc.1.incrementPreDoneCount j, acc.2) := by
        unfold pfStep
        dsimp only
        rw [if_neg (by simp [hready])]
      rw [hstep]
      refine ⟨hd2E, hd2len, hd2ids, ?_, hacc.f5, hacc.f6, hacc.f7, hacc.f8, ?_⟩
      · intro i hi
        rw [hcnt4 i hi]
        by_cases hij : i = j
        · subst hij
          rw [hpre_self, hacc.f4 i hi, if_pos rfl]
          omega
        · rw [preD_increment_other hij, hacc.f4 i hi, if_neg hij]
          omega
      · intro nd hnd
        rw [preD_increment_other (hnotin nd hnd)]
        exact hacc.f9 nd hnd
    | true =>
      have hstep : pfStep acc j = (acc.1.incrementPreDoneCount j,
          acc.2 ++ [(acc.1.incrementPreDoneCount j).node j]) := by
        unfold pfStep
        dsimp only
        rw [if_pos hready]
      have hrdy : preD (acc.1.incrementPreDoneCount j) j = (inDegE E j : Int) :=
        (isNodeReady_iff hd2E j).mp hready
      have hfull : (finPredCount E stb j : Int) = (inDegE E j : Int) := by
        have h1 := hcount j hjN
        have h2 := finPredCount_le_inDegE E stb j
        have h3 := hacc.f4 j hjN
        rw [h3] at hpre_self
        rw [hpre_self] at hrdy
        omega
      have hallfin : ∀ e ∈ E, e.2 = j → finishedAt stb e.1 := by
        have hlen2 : (E.filter (fun e => decide (e.2 = j))).length ≤
            (E.filter (fun e => decide (e.2 = j ∧ finishedAt stb e.1))).length := by
          have : inDegE E j ≤ finPredCount E stb j := by exact_mod_cast hfull.symm.le
          unfold inDegE finPredCount at this
          exact this
        have hcl := length_filter_full
          (p := fun e : Nat × Nat => decide (e.2 = j ∧ finishedAt stb e.1))
          (q := fun e : Nat × Nat => decide (e.2 = j))
          (fun a _ ha => decide_eq_true (of_decide_eq_true ha).1) hlen2
        intro e he h2
        exact (of_decide_eq_true (hcl e he (decide_eq_true h2))).2
      have hndid : ((acc.1.incrementPreDoneCount j).node j).id = (j : Int) :=
        hd2ids j hjN
      have hndtoNat : ((acc.1.incrementPreDoneCount j).node j).id.toNat = j := by
        rw [hndid]
        exact Int.toNat_natCast j
      rw [hstep]
      refine ⟨hd2E, hd2len, hd2ids, ?_, ?_, ?_, ?_, ?_, ?_⟩
      · intro i hi
        rw [hcnt4 i hi]
        by_cases hij : i = j
        · subst hij
          rw [hpre_self, hacc.f4 i hi, if_pos rfl]
          omega
        · rw [preD_increment_other hij, hacc.f4 i hi, if_neg hij]
          omega
      · intro nd hnd
        rcases List.mem_append.mp hnd with h | h
        · exact hacc.f5 nd h
        · rw [List.mem_singleton] at h
          subst h
          rw [hndtoNat, hndid]
          exact ⟨rfl, hjN⟩
      · intro nd hnd
        rcases List.mem_append.mp hnd with h | h
        · exact hacc.f6 nd h
        · rw [List.mem_singleton] at h
          subst h
          rw [hndtoNat]
          exact hjsNotExec j hj_in
      · intro nd hnd e he h2
        rcases List.mem_append.mp hnd with h | h
        · exact hacc.f7 nd h e he h2
        · rw [List.mem_singleton] at h
          subst h
          rw [hndtoNat] at h2
          exact hallfin e he h2
      · rw [List.map_append, List.map_singleton, hndtoNat]
        rw [List.nodup_append]
        refine ⟨hacc.f8, List.nodup_singleton j, ?_⟩
        intro a ha ha2
        rw [List.mem_singleton] at ha2
        subst ha2
        obtain ⟨nd, hnd, hnd2⟩ := List.mem_map.mp ha
        exact hnotin nd hnd hnd2
      · intro nd hnd
        rcases List.mem_append.mp hnd with h | h
        · rw [preD_increment_other (hnotin nd h)]
          exact hacc.f9 nd h
        · rw [List.mem_singleton] at h
          subst h
          rw [hndtoNat]
          rw [hpre_self]
          rw [hpre_self] at hrdy
          exact hrdy

/-- The transitional invariant holding between the tick phase and
`processFinished`: the counters lag the finished-predecessor counts by
exactly the contribution of the just-finished nodes `fsIdx`. -/
structure SInvT (E : List (Nat × Nat)) (N src sink : Nat) (fsIdx : List Nat)
    (st : ListSchedState) : Prop where
  hE : st.dag.edges = E
  hlen : st.dag.nodes.length = N
  hids : ∀ i, i < N → (st.dag.node i).id = (i : Int)
  execNd : st.execOrder.Nodup
  execLt : ∀ i ∈ st.execOrder, i < N
  runSub : ∀ i ∈ runningIds st.processor, i ∈ st.execOrder
  runNd : (runningIds st.processor).Nodup
  rqIds : ∀ nd ∈ st.readyQueue, nd.id = (nd.id.toNat : Int) ∧ nd.id.toNat < N
  rqNotExec : ∀ nd ∈ st.readyQueue, nd.id.toNat ∉ st.execOrder
  rqPreds : ∀ nd ∈ st.readyQueue, ∀ e ∈ E, e.2 = nd.id.toNat → finishedAt st e.1
  rqNd : (st.readyQueue.map (fun nd => nd.id.toNat)).Nodup
  rqReady : ∀ nd ∈ st.readyQueue, preD st.dag nd.id.toNat =
    (inDegE E nd.id.toNat : Int)
  pre_mid : ∀ i, i < N → preD st.dag i + (fsPredCount E fsIdx i : Int) =
    (finPredCount E st i : Int)
  execPreds : ∀ i ∈ st.execOrder, ∀ e ∈ E, e.2 = i → finishedAt st e.1
  sinkFull : sink ∈ st.execOrder → ∀ i, i < N → i ∈ st.execOrder
  sinkLast : sink ∈ st.execOrder → st.execOrder.getLast? = some sink
  headSrc : st.execOrder ≠ [] → st.execOrder.head? = some src
  fsNd : fsIdx.Nodup
  fsFin : ∀ f ∈ fsIdx, finishedAt st f
  fsFreshExec : ∀ i ∈ st.execOrder, ∀ e ∈ E, e.2 = i → e.1 ∉ fsIdx
  fsFreshRq : ∀ nd ∈ st.readyQueue, ∀ e ∈ E, e.2 = nd.id.toNat → e.1 ∉ fsIdx

/-- `processFinished` restores the full invariant from the transitional
one. -/
theorem processFinished_sinv {E : List (Nat × Nat)} {N src sink : Nat}
    {rank : Nat → Nat} (G : GShape E N src sink rank)
    {stb : ListSchedState} {fsIdx : List Nat}
    (T : SInvT E N src sink fsIdx stb) :
    SInv E N src sink
      { stb with dag := (processFinished stb.dag stb.readyQueue fsIdx).1,
                 readyQueue := (processFinished stb.dag stb.readyQueue fsIdx).2 } := by
  have hpf : processFinished stb.dag stb.readyQueue fsIdx =
      (fsIdx.flatMap stb.dag.sucs).foldl pfStep (stb.dag, stb.readyQueue) :=
    processFinished_flatten _ _ _
  have hjs_edge : ∀ j ∈ fsIdx.flatMap stb.dag.sucs,
      ∃ f ∈ fsIdx, (f, j) ∈ E := by
    intro j hj
    obtain ⟨f, hf, hj2⟩ := List.mem_flatMap.mp hj
    exact ⟨f, hf, T.hE ▸ mem_sucs.mp hj2⟩
  have hjs_lt : ∀ j ∈ fsIdx.flatMap stb.dag.sucs, j < N := by
    intro j hj
    obtain ⟨f, _, he⟩ := hjs_edge j hj
    exact (G.hedge _ he).2.1
  have hjsNotExec : ∀ j ∈ fsIdx.flatMap stb.dag.sucs, j ∉ stb.execOrder := by
    intro j hj hmem
    obtain ⟨f, hf, he⟩ := hjs_edge j hj
    exact T.fsFreshExec j hmem (f, j) he rfl hf
  have hcount : ∀ i, i < N →
      preD stb.dag i + ((fsIdx.flatMap stb.dag.sucs).count i : Int) =
        (finPredCount E stb i : Int) := by
    intro i hi
    rw [count_flatMap_sucs T.hE T.fsNd i]
    exact T.pre_mid i hi
  have F := pfFold_facts hjs_lt hjsNotExec hcount (fsIdx.flatMap stb.dag.sucs)
    [] (stb.dag, stb.readyQueue) rfl
    ⟨T.hE, T.hlen, T.hids, by intro i hi; simp, T.rqIds, T.rqNotExec, T.rqPreds,
      T.rqNd, T.rqReady⟩
  rw [hpf]
  refine ⟨F.f1, F.f2, F.f3, T.execNd, T.execLt, T.runSub, T.runNd, F.f5, F.f6,
    F.f7, F.f8, F.f9, ?_, T.execPreds, T.sinkFull, T.sinkLast, T.headSrc⟩
  intro i hi
  rw [F.f4 i hi, count_flatMap_sucs T.hE T.fsNd i]
  exact T.pre_mid i hi

theorem decide_and_or_split (a b c : Prop) [Decidable a] [Decidable b]
    [Decidable c] :
    decide (a ∧ (b ∨ c)) = (decide (a ∧ b) || (decide a && decide c)) := by
  by_cases ha : a <;> by_cases hb : b <;> by_cases hc : c <;> simp [ha, hb, hc]

/-- The tick phase turns the invariant into the transitional one, the
just-finished nodes being exactly the running nodes that left the
cores. -/
theorem tick_sinvt {E : List (Nat × Nat)} {N src sink : Nat}
    {sta : ListSchedState} (hinv : SInv E N src sink sta)
    {tfuel : Nat} {p2 : Processor} {t2 : Int} {res : List ProcessResult}
    (htick : tickUntilDone tfuel sta.processor sta.currentTime =
      some (p2, t2, res)) (lg2 : List LogEvent) :
    SInvT E N src sink ((finishedNodes res).map (fun nd => nd.id.toNat))
      { sta with processor := p2, currentTime := t2, log := lg2 } := by
  obtain ⟨hperm, hfne⟩ :=
    tickUntilDone_spec tfuel sta.processor sta.currentTime p2 t2 res htick
  have hrhsNd := hperm.nodup hinv.runNd
  rw [List.nodup_append] at hrhsNd
  obtain ⟨run2Nd, fsNd2, hdisj⟩ := hrhsNd
  have hmem : ∀ i, i ∈ runningIds sta.processor ↔
      i ∈ runningIds p2 ∨ i ∈ (finishedNodes res).map (fun nd => nd.id.toNat) := by
    intro i
    rw [hperm.mem_iff, List.mem_append]
  have fsSubOld : ∀ f ∈ (finishedNodes res).map (fun nd => nd.id.toNat),
      f ∈ runningIds sta.processor := fun f hf => (hmem f).mpr (Or.inr hf)
  have run2SubOld : ∀ i ∈ runningIds p2, i ∈ runningIds sta.processor :=
    fun i hi => (hmem i).mpr (Or.inl hi)
  have hfin_iff : ∀ i, finishedAt
      { sta with processor := p2, currentTime := t2, log := lg2 } i ↔
      (finishedAt sta i ∨ i ∈ (finishedNodes res).map (fun nd => nd.id.toNat)) := by
    intro i
    constructor
    · rintro ⟨hex, hnr⟩
      by_cases hro : i ∈ runningIds sta.processor
      · rcases (hmem i).mp hro with h | h
        · exact absurd h hnr
        · exact Or.inr h
      · exact Or.inl ⟨hex, hro⟩
    · rintro (⟨hex, hnr⟩ | hf)
      · exact ⟨hex, fun h => hnr (run2SubOld _ h)⟩
      · exact ⟨hinv.runSub i (fsSubOld i hf), fun h => hdisj h hf⟩
  have hfc : ∀ i, finPredCount E
      { sta with processor := p2, currentTime := t2, log := lg2 } i =
      finPredCount E sta i +
        fsPredCount E ((finishedNodes res).map (fun nd => nd.id.toNat)) i := by
    intro i
    unfold finPredCount fsPredCount
    rw [List.filter_congr
      (fun e (_ : e ∈ E) => show decide (e.2 = i ∧ finishedAt _ e.1) = _ from ?_),
      length_filter_or_disjoint ?_]
    · intro e he ⟨h1, h2⟩
      have hp1 := of_decide_eq_true h1
      rw [Bool.and_eq_true, List.elem_iff] at h2
      exact hp1.2.2 (fsSubOld e.1 h2.2)
    · rw [decide_eq_decide.mpr
        (and_congr_right (fun _ => hfin_iff e.1)), decide_and_or_split]
      have hbe : ((finishedNodes res).map (fun nd => nd.id.toNat)).contains e.1 =
          decide (e.1 ∈ (finishedNodes res).map (fun nd => nd.id.toNat)) := by
        by_cases h : e.1 ∈ (finishedNodes res).map (fun nd => nd.id.toNat) <;>
          simp [List.elem_iff, h]
      rw [hbe]
  refine ⟨hinv.hE, hinv.hlen, hinv.hids, hinv.execNd, hinv.execLt, ?_, run2Nd,
    hinv.rqIds, hinv.rqNotExec, ?_, hinv.rqNd, hinv.rqReady, ?_, ?_,
    hinv.sinkFull, hinv.sinkLast, hinv.headSrc, fsNd2, ?_, ?_, ?_⟩
  · intro i hi
    exact hinv.runSub i (run2SubOld i hi)
  · intro nd hnd e he h2
    exact (hfin_iff e.1).mpr (Or.inl (hinv.rqPreds nd hnd e he h2))
  · intro i hi
    rw [hfc i]
    have hdag : ({ sta with processor := p2, currentTime := t2, log := lg2 } :
        ListSchedState).dag = sta.dag := rfl
    rw [hdag]
    have := hinv.pre_eq i hi
    omega
  · intro i hi e he h2
    exact (hfin_iff e.1).mpr (Or.inl (hinv.execPreds i hi e he h2))
  · intro f hf
    exact (hfin_iff f).mpr (Or.inr hf)
  · intro i hi e he h2 hfs
    exact (hinv.execPreds i hi e he h2).2 (fsSubOld e.1 hfs)
  · intro nd hnd e he h2 hfs
    exact (hinv.rqPreds nd hnd e he h2).2 (fsSubOld e.1 hfs)

/-- What holds of the state returned by the scheduling loop. -/
structure FinalFacts (N src sink : Nat) (st : ListSchedState) : Prop where
  fexecNd : st.execOrder.Nodup
  fexecLt : ∀ i ∈ st.execOrder, i < N
  fsinkMem : sink ∈ st.execOrder
  fexecFull : ∀ i, i < N → i ∈ st.execOrder
  flastSink : st.execOrder.getLast? = some sink
  fheadSrc : st.execOrder.head? = some src

/-- The loop preserves the invariant and, at the break, the lone
finisher with no successors must be the sink, so the execution order is
complete, starts at the dummy source and ends at the dummy sink. -/
theorem listSchedLoop_final {E : List (Nat × Nat)} {N src sink : Nat}
    {rank : Nat → Nat} (G : GShape E N src sink rank)
    {sortRQ : List NodeData → List NodeData}
    (hsort : ∀ l : List NodeData, (sortRQ l).Perm l) (tfuel : Nat) :
    ∀ (fuel : Nat) (st stf : ListSchedState), SInv E N src sink st →
    listSchedLoop sortRQ src sink tfuel fuel st = some stf →
    FinalFacts N src sink stf := by
  intro fuel
  induction fuel with
  | zero =>
    intro st stf _ h
    exact absurd h (by simp [listSchedLoop])
  | succ fuel ih =>
    intro st stf hinv h
    have hinva : SInv E N src sink
        (allocPhaseAux src sink (sortRQ st.readyQueue) st) :=
      allocAux_sinv G _ st (sort_sinv hsort hinv)
    unfold listSchedLoop at h
    dsimp only at h
    cases htick : tickUntilDone tfuel
        (allocPhaseAux src sink (sortRQ st.readyQueue) st).processor
        (allocPhaseAux src sink (sortRQ st.readyQueue) st).currentTime with
    | none =>
      rw [htick] at h
      exact absurd h (by simp)
    | some out =>
      obtain ⟨p2, t2, res⟩ := out
      rw [htick] at h
      dsimp only at h
      have T := tick_sinvt hinva htick
        ((allocPhaseAux src sink (sortRQ st.readyQueue) st).log ++
          ((finishedNodes res).filter
            (fun nd => ¬ (nd.id = (src : Int) ∨ nd.id = (sink : Int)))).map
            (fun nd => LogEvent.finishing nd.id (t2 - 1)))
      split at h
      · rename_i hbreak
        injection h with h
        subst h
        obtain ⟨x, hx⟩ := List.length_eq_one.mp hbreak.1
        have hxm : x ∈ (finishedNodes res).map (fun nd => nd.id.toNat) := by
          rw [hx]
          exact List.mem_singleton_self x
        have hxfin := T.fsFin x hxm
        have hxexec := hxfin.1
        have hxN := T.execLt x hxexec
        have hxsink : x = sink := by
          by_contra hne
          obtain ⟨e, heE, he1⟩ := G.hsucs x hxN hne
          have hsmem : e.2 ∈ ({ allocPhaseAux src sink (sortRQ st.readyQueue) st
              with processor := p2, currentTime := t2,
                   log := (allocPhaseAux src sink (sortRQ st.readyQueue) st).log ++
                     ((finishedNodes res).filter
                       (fun nd => ¬ (nd.id = (src : Int) ∨ nd.id = (sink : Int)))).map
                       (fun nd => LogEvent.finishing nd.id (t2 - 1)) } :
              ListSchedState).dag.sucs x := by
            refine mem_sucs.mpr ?_
            rw [T.hE]
            have : e = (x, e.2) := by
              cases e
              simp_all
            rwa [this] at heE
          have hempty := hbreak.2
          rw [hx] at hempty
          simp only [List.headD] at hempty
          rw [List.isEmpty_iff] at hempty
          rw [hempty] at hsmem
          exact absurd hsmem (List.not_mem_nil e.2)
        subst hxsink
        exact ⟨T.execNd, T.execLt, hxexec, T.sinkFull hxexec, T.sinkLast hxexec,
          T.headSrc (List.ne_nil_of_mem hxexec)⟩
      · exact ih _ _ (processFinished_sinv G T) h

theorem mem_getSourceNodes {d : DAGGraph} {i : Nat} :
    i ∈ d.getSourceNodes ↔ (i < d.nodes.length ∧ d.isSource i) := by
  unfold DAGGraph.getSourceNodes
  rw [(stableSortByKey_perm _ _).mem_iff, List.mem_filter, List.mem_range]

theorem getD_concat_lt (l l' : List α) (i : Nat) (dflt : α) (h : i < l.length) :
    (l ++ l').getD i dflt = l.getD i dflt := by
  induction l generalizing i with
  | nil => simp at h
  | cons x t ih =>
    cases i with
    | zero => rfl
    | succ i =>
      simp only [List.cons_append, List.getD_cons_succ]
      exact ih i (by simpa using h)

theorem getD_concat_self (l : List α) (a : α) (dflt : α) :
    (l ++ [a]).getD l.length dflt = a := by
  induction l with
  | nil => rfl
  | cons x t ih =>
    simpa using ih

theorem foldl_max_mem (l : List Nat) :
    ∀ acc, l.foldl max acc ∈ l ∨ l.foldl max acc = acc := by
  induction l with
  | nil => intro acc; exact Or.inr rfl
  | cons x t ih =>
    intro acc
    rcases ih (max acc x) with h | h
    · exact Or.inl (List.mem_cons_of_mem x h)
    · rcases max_choice acc x with h2 | h2
      · rw [List.foldl_cons, h, h2]
        exact Or.inr rfl
      · rw [List.foldl_cons, h, h2]
        exact Or.inl (List.mem_cons_self x t)

theorem exists_max_rank (m : Nat) (hm : 0 < m) (f : Nat → Nat) :
    ∃ j, j < m ∧ ∀ k, k < m → f k ≤ f j := by
  have hbound : ∀ k, k < m → f k ≤ ((List.range m).map f).foldl max 0 :=
    fun k hk =>
      mem_le_foldl_max (List.mem_map_of_mem f (List.mem_range.mpr hk)) 0
  rcases foldl_max_mem ((List.range m).map f) 0 with h | h
  · obtain ⟨j, hj, hfj⟩ := List.mem_map.mp h
    exact ⟨j, List.mem_range.mp hj, fun k hk => hfj ▸ hbound k hk⟩
  · refine ⟨0, hm, fun k hk => ?_⟩
    have := hbound k hk
    omega

theorem exists_min_rank (m : Nat) (hm : 0 < m) (f : Nat → Nat) :
    ∃ j, j < m ∧ ∀ k, k < m → f j ≤ f k := by
  have hbound : ∀ k, k < m → f k ≤ ((List.range m).map f).foldl max 0 :=
    fun k hk =>
      mem_le_foldl_max (List.mem_map_of_mem f (List.mem_range.mpr hk)) 0
  obtain ⟨j, hj, hmax⟩ := exists_max_rank m hm
    (fun i => ((List.range m).map f).foldl max 0 - f i)
  refine ⟨j, hj, fun k hk => ?_⟩
  have h1 := hmax k hk
  have h2 := hbound k hk
  have h3 := hbound j hj
  omega

theorem eq_dropLast_append_getLast {l : List α} {a : α}
    (h : l.getLast? = some a) : l = l.dropLast ++ [a] := by
  induction l with
  | nil => simp at h
  | cons x t ih =>
    cases t with
    | nil =>
      simp only [List.getLast?_singleton, Option.some.injEq] at h
      rw [h]
      rfl
    | cons y t2 =>
      rw [List.getLast?_cons_cons] at h
      have := ih h
      rw [List.dropLast_cons₂, List.cons_append, ← this]

/-- The augmented DAG of `schedule()`: dummy source then dummy sink
appended. -/
def dummyExt (d : DAGGraph) : DAGGraph :=
  (addDummySink (addDummySource d).1).1

/-- A rank function for the augmented DAG: the dummy source below all
original ranks, the dummy sink above them. -/
def extRank (n : Nat) (rank : Nat → Nat) (i : Nat) : Nat :=
  if i = n then 0
  else if i = n + 1 then ((List.range n).map rank).foldl max 0 + 2
  else rank i + 1

theorem dummyExt_edges (d : DAGGraph) :
    (dummyExt d).edges =
      (d.edges ++ d.getSourceNodes.map (fun j => (d.nodes.length, j))) ++
        (addDummySource d).1.getSinkNodes.map
          (fun j => (j, d.nodes.length + 1)) := by
  unfold dummyExt addDummySink addDummySource
  simp

theorem dummyExt_length (d : DAGGraph) :
    (dummyExt d).nodes.length = d.nodes.length + 2 := by
  unfold dummyExt addDummySink addDummySource
  simp

theorem addDummySource_length (d : DAGGraph) :
    (addDummySource d).1.nodes.length = d.nodes.length + 1 := by
  unfold addDummySource
  simp

theorem dummyExt_nodes (d : DAGGraph) :
    (dummyExt d).nodes =
      (d.nodes ++ [⟨(d.nodes.length : Int), [("execution_time", 1)]⟩]) ++
        [⟨((d.nodes.length + 1 : Nat) : Int), [("execution_time", 1)]⟩] := by
  unfold dummyExt addDummySink addDummySource
  simp

theorem dummyExt_node_lt (d : DAGGraph) {i : Nat} (hi : i < d.nodes.length) :
    (dummyExt d).node i = d.node i := by
  unfold DAGGraph.node
  rw [dummyExt_nodes, getD_concat_lt _ _ _ _ (by simp; omega),
    getD_concat_lt _ _ _ _ hi]

theorem dummyExt_node_src (d : DAGGraph) :
    (dummyExt d).node d.nodes.length =
      ⟨(d.nodes.length : Int), [("execution_time", 1)]⟩ := by
  unfold DAGGraph.node
  rw [dummyExt_nodes, getD_concat_lt _ _ _ _ (by simp), getD_concat_self]

theorem dummyExt_node_sink (d : DAGGraph) :
    (dummyExt d).node (d.nodes.length + 1) =
      ⟨((d.nodes.length + 1 : Nat) : Int), [("execution_time", 1)]⟩ := by
  unfold DAGGraph.node
  rw [dummyExt_nodes]
  have hl : (d.nodes ++ [(⟨(d.nodes.length : Int),
      [("execution_time", 1)]⟩ : NodeData)]).length = d.nodes.length + 1 := by
    simp
  rw [← hl, getD_concat_self]

theorem dummyExt_ids (d : DAGGraph)
    (hids : ∀ i, i < d.nodes.length → (d.node i).id = (i : Int)) :
    ∀ i, i < d.nodes.length + 2 → ((dummyExt d).node i).id = (i : Int) := by
  intro i hi
  by_cases h1 : i < d.nodes.length
  · rw [dummyExt_node_lt d h1]
    exact hids i h1
  · by_cases h2 : i = d.nodes.length
    · rw [h2, dummyExt_node_src]
    · have h3 : i = d.nodes.length + 1 := by omega
      rw [h3, dummyExt_node_sink]

theorem dummyExt_pdc (d : DAGGraph)
    (hpdc : ∀ i, i < d.nodes.length →
      (d.node i).get "pre_done_count" = none) :
    ∀ i, i < d.nodes.length + 2 →
      ((dummyExt d).node i).get "pre_done_count" = none := by
  intro i hi
  by_cases h1 : i < d.nodes.length
  · rw [dummyExt_node_lt d h1]
    exact hpdc i h1
  · by_cases h2 : i = d.nodes.length
    · rw [h2, dummyExt_node_src]
      rfl
    · have h3 : i = d.nodes.length + 1 := by omega
      rw [h3, dummyExt_node_sink]
      rfl

theorem dummyExt_no_edge_to_src (d : DAGGraph) (rank : Nat → Nat)
    (hedge : ∀ e ∈ d.edges, e.1 < d.nodes.length ∧ e.2 < d.nodes.length ∧
      rank e.1 < rank e.2) :
    ∀ e ∈ (dummyExt d).edges, e.2 ≠ d.nodes.length := by
  intro e he
  rw [dummyExt_edges] at he
  rcases List.mem_append.mp he with h | h
  · rcases List.mem_append.mp h with h2 | h2
    · have := (hedge e h2).2.1
      omega
    · obtain ⟨j, hj, hje⟩ := List.mem_map.mp h2
      have hjn := (mem_getSourceNodes.mp hj).1
      rw [← hje]
      dsimp only
      omega
  · obtain ⟨j, hj, hje⟩ := List.mem_map.mp h
    rw [← hje]
    dsimp only
    omega

/-- The augmented DAG satisfies the graph-shape hypotheses with the
extended rank. -/
theorem dummyExt_gshape (d : DAGGraph) (rank : Nat → Nat)
    (hedge : ∀ e ∈ d.edges, e.1 < d.nodes.length ∧ e.2 < d.nodes.length ∧
      rank e.1 < rank e.2) :
    GShape (dummyExt d).edges (d.nodes.length + 2) d.nodes.length
      (d.nodes.length + 1) (extRank d.nodes.length rank) := by
  have hsplit : ∀ e : Nat × Nat, e ∈ (dummyExt d).edges ↔
      (e ∈ d.edges ∨
        e ∈ d.getSourceNodes.map (fun j => (d.nodes.length, j)) ∨
        e ∈ (addDummySource d).1.getSinkNodes.map
          (fun j => (j, d.nodes.length + 1))) := by
    intro e
    rw [dummyExt_edges]
    simp [or_assoc]
  have hrank_le_B : ∀ j, j < d.nodes.length →
      rank j ≤ ((List.range d.nodes.length).map rank).foldl max 0 := fun j hj =>
    mem_le_foldl_max (List.mem_map_of_mem rank (List.mem_range.mpr hj)) 0
  have hsrcmem : ∀ j ∈ d.getSourceNodes, j < d.nodes.length :=
    fun j hj => (mem_getSourceNodes.mp hj).1
  have hsinkmem1 : ∀ j ∈ (addDummySource d).1.getSinkNodes,
      j < d.nodes.length + 1 := by
    intro j hj
    have := (mem_getSinkNodes.mp hj).1
    rwa [addDummySource_length] at this
  have hr_src : extRank d.nodes.length rank d.nodes.length = 0 := by
    unfold extRank
    rw [if_pos rfl]
  have hr_sink : extRank d.nodes.length rank (d.nodes.length + 1) =
      ((List.range d.nodes.length).map rank).foldl max 0 + 2 := by
    unfold extRank
    rw [if_neg (by omega), if_pos rfl]
  have hr_orig : ∀ j, j < d.nodes.length →
      extRank d.nodes.length rank j = rank j + 1 := by
    intro j hj
    unfold extRank
    rw [if_neg (by omega), if_neg (by omega)]
  have hedge1 : ∀ e ∈ (addDummySource d).1.edges,
      e.1 < d.nodes.length + 1 ∧ e.2 < d.nodes.length + 1 ∧
        extRank d.nodes.length rank e.1 < extRank d.nodes.length rank e.2 := by
    intro e he
    have hd1e : (addDummySource d).1.edges =
        d.edges ++ d.getSourceNodes.map (fun j => (d.nodes.length, j)) := rfl
    rw [hd1e] at he
    rcases List.mem_append.mp he with h | h
    · obtain ⟨h1, h2, h3⟩ := hedge e h
      rw [hr_orig e.1 h1, hr_orig e.2 h2]
      exact ⟨by omega, by omega, by omega⟩
    · obtain ⟨j, hj, hje⟩ := List.mem_map.mp h
      have hjn := hsrcmem j hj
      rw [← hje]
      dsimp only
      rw [hr_src, hr_orig j hjn]
      exact ⟨by omega, by omega, by omega⟩
  have hsinkex : ∃ jm, jm ∈ (addDummySource d).1.getSinkNodes := by
    obtain ⟨jm, hjm, hmax⟩ := exists_max_rank (d.nodes.length + 1) (by omega)
      (extRank d.nodes.length rank)
    have hsk : (addDummySource d).1.isSink jm = true := by
      by_contra hns
      simp only [DAGGraph.isSink, List.all_eq_true, decide_eq_true_eq] at hns
      push_neg at hns
      obtain ⟨e, he, he1⟩ := hns
      obtain ⟨h1, h2, h3⟩ := hedge1 e he
      rw [he1] at h3
      have := hmax e.2 h2
      omega
    exact ⟨jm, mem_getSinkNodes.mpr ⟨by rw [addDummySource_length]; omega, hsk⟩⟩
  refine ⟨?_, ?_, ?_, by omega, by omega⟩
  · intro e he
    rcases (hsplit e).mp he with h | h | h
    · obtain ⟨h1, h2, h3⟩ := hedge e h
      rw [hr_orig e.1 h1, hr_orig e.2 h2]
      exact ⟨by omega, by omega, by omega⟩
    · obtain ⟨j, hj, hje⟩ := List.mem_map.mp h
      have hjn := hsrcmem j hj
      rw [← hje]
      dsimp only
      rw [hr_src, hr_orig j hjn]
      exact ⟨by omega, by omega, by omega⟩
    · obtain ⟨j, hj, hje⟩ := List.mem_map.mp h
      have hjn1 := hsinkmem1 j hj
      rw [← hje]
      dsimp only
      rw [hr_sink]
      refine ⟨by omega, by omega, ?_⟩
      by_cases hjn : j = d.nodes.length
      · rw [hjn, hr_src]
        omega
      · have hjlt : j < d.nodes.length := by omega
        rw [hr_orig j hjlt]
        have := hrank_le_B j hjlt
        omega
  · intro i hi h0
    by_contra hne
    have hin : ∃ e ∈ (dummyExt d).edges, e.2 = i := by
      by_cases hi1 : i < d.nodes.length
      · by_cases hsrc : d.isSource i
        · exact ⟨(d.nodes.length, i), (hsplit _).mpr (Or.inr (Or.inl
            (List.mem_map_of_mem _ (mem_getSourceNodes.mpr ⟨hi1, hsrc⟩)))), rfl⟩
        · simp only [DAGGraph.isSource, List.all_eq_true, decide_eq_true_eq]
            at hsrc
          push_neg at hsrc
          obtain ⟨e, he, he2⟩ := hsrc
          exact ⟨e, (hsplit _).mpr (Or.inl he), he2⟩
      · have hi2 : i = d.nodes.length + 1 := by omega
        obtain ⟨jm, hjm⟩ := hsinkex
        exact ⟨(jm, d.nodes.length + 1), (hsplit _).mpr (Or.inr (Or.inr
          (List.mem_map_of_mem _ hjm))), by rw [hi2]⟩
    obtain ⟨e, he, he2⟩ := hin
    have hpos : 0 < inDegE (dummyExt d).edges i := by
      unfold inDegE
      refine List.length_pos.mpr (fun hnil => ?_)
      have : e ∈ ([] : List (Nat × Nat)) :=
        hnil ▸ List.mem_filter.mpr ⟨he, by simp [he2]⟩
      simp at this
    omega
  · intro i hi hisink
    by_cases hin : i = d.nodes.length
    · by_cases hn0 : d.nodes.length = 0
      · have hd_edges : d.edges = [] := by
          refine List.eq_nil_iff_forall_not_mem.mpr (fun e he => ?_)
          have := (hedge e he).1
          omega
        have hsink1 : (addDummySource d).1.isSink d.nodes.length = true := by
          simp only [DAGGraph.isSink, List.all_eq_true, decide_eq_true_eq]
          intro e he
          have hd1e : (addDummySource d).1.edges =
              d.edges ++ d.getSourceNodes.map (fun j => (d.nodes.length, j)) :=
            rfl
          rw [hd1e, hd_edges] at he
          simp only [List.nil_append] at he
          obtain ⟨j, hj, hje⟩ := List.mem_map.mp he
          have := hsrcmem j hj
          omega
        refine ⟨(d.nodes.length, d.nodes.length + 1), (hsplit _).mpr
          (Or.inr (Or.inr (List.mem_map_of_mem _ (mem_getSinkNodes.mpr
            ⟨by rw [addDummySource_length]; omega, hsink1⟩)))), by rw [hin]⟩
      · obtain ⟨j, hj, hmin⟩ := exists_min_rank d.nodes.length (by omega) rank
        have hsource : d.isSource j = true := by
          simp only [DAGGraph.isSource, List.all_eq_true, decide_eq_true_eq]
          intro e he
          obtain ⟨h1, h2, h3⟩ := hedge e he
          intro hej
          rw [hej] at h3
          have := hmin e.1 h1
          omega
        exact ⟨(d.nodes.length, j), (hsplit _).mpr (Or.inr (Or.inl
          (List.mem_map_of_mem _ (mem_getSourceNodes.mpr ⟨hj, hsource⟩)))),
          by rw [hin]⟩
    · by_cases hi1 : i < d.nodes.length
      · by_cases hsk : (addDummySource d).1.isSink i
        · exact ⟨(i, d.nodes.length + 1), (hsplit _).mpr (Or.inr (Or.inr
            (List.mem_map_of_mem _ (mem_getSinkNodes.mpr
              ⟨by rw [addDummySource_length]; omega, hsk⟩)))), rfl⟩
        · simp only [DAGGraph.isSink, List.all_eq_true, decide_eq_true_eq]
            at hsk
          push_neg at hsk
          obtain ⟨e, he, he1⟩ := hsk
          have hd1e : (addDummySource d).1.edges =
              d.edges ++ d.getSourceNodes.map (fun j => (d.nodes.length, j)) :=
            rfl
          rw [hd1e] at he
          rcases List.mem_append.mp he with h | h
          · exact ⟨e, (hsplit _).mpr (Or.inl h), he1⟩
          · exact ⟨e, (hsplit _).mpr (Or.inr (Or.inl h)), he1⟩
      · omega

/-- The invariant holds at the initial state of the list scheduler: an
all-idle processor, the dummy source alone in the ready queue, empty
execution order. -/
theorem initial_sinv (d : DAGGraph) (rank : Nat → Nat) (proc : Processor)
    (hedge : ∀ e ∈ d.edges, e.1 < d.nodes.length ∧ e.2 < d.nodes.length ∧
      rank e.1 < rank e.2)
    (hids : ∀ i, i < d.nodes.length → (d.node i).id = (i : Int))
    (hpdc : ∀ i, i < d.nodes.length → (d.node i).get "pre_done_count" = none)
    (hproc : ∀ c ∈ proc.cores, c = CoreState.idle) :
    SInv (dummyExt d).edges (d.nodes.length + 2) d.nodes.length
      (d.nodes.length + 1)
      ⟨dummyExt d, proc, [(dummyExt d).node d.nodes.length], [], 0, []⟩ := by
  have hrun : runningIds proc = [] := by
    unfold runningIds
    rw [List.filterMap_eq_nil]
    intro c hc
    rw [hproc c hc]
    rfl
  have hsrcid : ((dummyExt d).node d.nodes.length).id =
      (d.nodes.length : Int) := by
    rw [dummyExt_node_src]
  have hsrctoNat : ((dummyExt d).node d.nodes.length).id.toNat =
      d.nodes.length := by
    rw [hsrcid]
    exact Int.toNat_natCast _
  have hnosrc := dummyExt_no_edge_to_src d rank hedge
  have hpre0 : ∀ i, i < d.nodes.length + 2 → preD (dummyExt d) i = 0 := by
    intro i hi
    unfold preD
    rw [dummyExt_pdc d hpdc i hi]
    rfl
  refine ⟨rfl, dummyExt_length d, dummyExt_ids d hids, List.nodup_nil,
    ?_, ?_, ?_, ?_, ?_, ?_, ?_, ?_, ?_, ?_, ?_, ?_, ?_⟩
  · intro i hi
    exact absurd hi (List.not_mem_nil i)
  · intro i hi
    rw [hrun] at hi
    exact absurd hi (List.not_mem_nil i)
  · rw [hrun]
    exact List.nodup_nil
  · intro nd hnd
    rw [List.mem_singleton] at hnd
    subst hnd
    rw [hsrctoNat, hsrcid]
    exact ⟨rfl, by omega⟩
  · intro nd hnd
    exact List.not_mem_nil _
  · intro nd hnd e he h2
    rw [List.mem_singleton] at hnd
    subst hnd
    rw [hsrctoNat] at h2
    exact absurd h2 (hnosrc e he)
  · simp
  · intro nd hnd
    rw [List.mem_singleton] at hnd
    subst hnd
    rw [hsrctoNat]
    rw [hpre0 _ (by omega)]
    have hf : (dummyExt d).edges.filter (fun e => e.2 = d.nodes.length) = [] := by
      rw [List.filter_eq_nil_iff]
      intro e he
      simp only [decide_eq_true_eq]
      exact hnosrc e he
    unfold inDegE
    rw [hf]
    rfl
  · intro i hi
    rw [hpre0 i hi]
    have hf : (dummyExt d).edges.filter (fun e => decide (e.2 = i ∧
        finishedAt ⟨dummyExt d, proc, [(dummyExt d).node d.nodes.length],
          [], 0, []⟩ e.1)) = [] := by
      rw [List.filter_eq_nil_iff]
      intro e he
      simp only [decide_eq_true_eq, not_and]
      intro _ hfin
      exact absurd hfin.1 (List.not_mem_nil _)
    unfold finPredCount
    rw [hf]
    rfl
  · intro i hi
    exact absurd hi (List.not_mem_nil i)
  · intro hs
    exact absurd hs (List.not_mem_nil _)
  · intro hs
    exact absurd hs (List.not_mem_nil _)
  · intro hne
    exact absurd rfl hne

/-- C4.  For every DAG (well-formed: ids are positions, edges in range
and acyclic, no preset `pre_done_count`) and all-idle processor, a
completing run of the intra-DAG `schedule()` returns a first component
equal to `current_time - 2`, and an execution order that, after the
first entry (dummy source) and last entry (dummy sink) are removed,
contains exactly the original nodes, each exactly once, in allocation
order. -/
theorem claim4_dummy_transparency
    (sortRQ : List NodeData → List NodeData)
    (hsort : ∀ l : List NodeData, (sortRQ l).Perm l)
    (fuel tfuel : Nat) (d : DAGGraph) (proc : Processor) (rank : Nat → Nat)
    (hedge : ∀ e ∈ d.edges, e.1 < d.nodes.length ∧ e.2 < d.nodes.length ∧
      rank e.1 < rank e.2)
    (hids : ∀ i, i < d.nodes.length → (d.node i).id = (i : Int))
    (hpdc : ∀ i, i < d.nodes.length → (d.node i).get "pre_done_count" = none)
    (hproc : ∀ c ∈ proc.cores, c = CoreState.idle)
    (len : Int) (eo : List Nat) (lg : List LogEvent)
    (h : listSchedule sortRQ fuel tfuel d proc = some (len, eo, lg)) :
    eo.Nodup ∧ eo.Perm (List.range d.nodes.length) ∧
    ∃ st, listSchedLoop sortRQ d.nodes.length (d.nodes.length + 1) tfuel fuel
        ⟨dummyExt d, proc, [(dummyExt d).node d.nodes.length], [], 0, []⟩ =
          some st ∧
      len = st.currentTime - 2 ∧
      st.execOrder = d.nodes.length :: (eo ++ [d.nodes.length + 1]) := by
  unfold listSchedule at h
  dsimp only at h
  rw [show ((addDummySink (addDummySource d).1).2) = d.nodes.length + 1 by
    rw [show ((addDummySink (addDummySource d).1).2) =
      (addDummySource d).1.nodes.length from rfl, addDummySource_length]] at h
  rw [show (addDummySource d).2 = d.nodes.length from rfl,
    show (addDummySink (addDummySource d).1).1 = dummyExt d from rfl] at h
  cases hloop : listSchedLoop sortRQ d.nodes.length (d.nodes.length + 1) tfuel
      fuel ⟨dummyExt d, proc, [(dummyExt d).node d.nodes.length], [], 0, []⟩ with
  | none =>
    rw [hloop] at h
    exact absurd h (by simp)
  | some st =>
    rw [hloop] at h
    dsimp only at h
    simp only [Option.some.injEq, Prod.mk.injEq] at h
    obtain ⟨h1, h2, h3⟩ := h
    have F := listSchedLoop_final (dummyExt_gshape d rank hedge) hsort tfuel
      fuel _ st (initial_sinv d rank proc hedge hids hpdc hproc) hloop
    cases hexec : st.execOrder with
    | nil => exact absurd (hexec ▸ F.fsinkMem) (List.not_mem_nil _)
    | cons a t =>
      have ha : a = d.nodes.length := by
        have := F.fheadSrc
        rw [hexec] at this
        simpa using this
      subst ha
      cases t with
      | nil =>
        have := F.flastSink
        rw [hexec] at this
        simp only [List.getLast?_singleton, Option.some.injEq] at this
        omega
      | cons y t2 =>
        have htLast : (y :: t2).getLast? = some (d.nodes.length + 1) := by
          have := F.flastSink
          rw [hexec, List.getLast?_cons_cons] at this
          exact this
        have htsplit : y :: t2 = (y :: t2).dropLast ++ [d.nodes.length + 1] :=
          eq_dropLast_append_getLast htLast
        have hndAll : (d.nodes.length :: y :: t2).Nodup := hexec ▸ F.fexecNd
        have hnd1 : d.nodes.length ∉ y :: t2 := (List.nodup_cons.mp hndAll).1
        have hndT : (y :: t2).Nodup := (List.nodup_cons.mp hndAll).2
        have heo : eo = (y :: t2).dropLast := by
          rw [← h2, hexec, List.dropLast_cons₂]
          rfl
        have heoNd : eo.Nodup := by
          rw [heo]
          exact List.Nodup.sublist (List.dropLast_sublist _) hndT
        have hsinkNotDrop : d.nodes.length + 1 ∉ (y :: t2).dropLast := by
          intro hmem
          have hnd2 := hndT
          rw [htsplit, List.nodup_append] at hnd2
          exact hnd2.2.2 hmem (List.mem_singleton_self _)
        have hmemiff : ∀ i, i ∈ eo ↔ i < d.nodes.length := by
          intro i
          rw [heo]
          constructor
          · intro hi
            have hit : i ∈ y :: t2 := (List.dropLast_sublist _).subset hi
            have hiexec : i ∈ st.execOrder := by
              rw [hexec]
              exact List.mem_cons_of_mem _ hit
            have hiN := F.fexecLt i hiexec
            have hin : i ≠ d.nodes.length := fun he => hnd1 (he ▸ hit)
            have hins : i ≠ d.nodes.length + 1 := fun he => hsinkNotDrop (he ▸ hi)
            omega
          · intro hi
            have hiexec := F.fexecFull i (by omega)
            rw [hexec] at hiexec
            rcases List.mem_cons.mp hiexec with he | he
            · omega
            · rw [htsplit] at he
              rcases List.mem_append.mp he with he2 | he2
              · exact he2
              · rw [List.mem_singleton] at he2
                omega
        refine ⟨heoNd, (List.perm_ext_iff_of_nodup heoNd
          (List.nodup_range _)).mpr (fun a => by
            rw [List.mem_range]; exact hmemiff a), st, rfl, h1.symm, ?_⟩
        rw [hexec, heo]
        rw [← htsplit]

/-- C4 witness: a single node of execution time 2 on one core; the run
completes with schedule length 2 and execution order `[0]` after dummy
removal. -/
theorem claim4_dummy_transparency_witness :
    listSchedule sortByNodePriority 10 10 ⟨[⟨0, [("execution_time", 2)]⟩], []⟩
        (processorNew 1) =
      some (2, [0], [LogEvent.allocating 0 0 0, LogEvent.finishing 0 2,
        LogEvent.utilizationCalc 2]) ∧
    ([0] : List Nat).Nodup ∧ ([0] : List Nat).Perm (List.range 1) := by
  have h : listSchedule sortByNodePriority 10 10
      ⟨[⟨0, [("execution_time", 2)]⟩], []⟩ (processorNew 1) =
      some (2, [0], [LogEvent.allocating 0 0 0, LogEvent.finishing 0 2,
        LogEvent.utilizationCalc 2]) := by decide
  have hmain := claim4_dummy_transparency sortByNodePriority
    (fun l => stableSortByKey_perm _ l) 10 10
    ⟨[⟨0, [("execution_time", 2)]⟩], []⟩ (processorNew 1) (fun _ => 0)
    (by intro e he; simp at he)
    (by intro i hi
        have h0 : i = 0 := by simpa using hi
        subst h0
        decide)
    (by intro i hi
        have h0 : i = 0 := by simpa using hi
        subst h0
        decide)
    (by intro c hc
        simp only [processorNew, List.mem_replicate] at hc
        exact hc.2)
    2 [0] [LogEvent.allocating 0 0 0, LogEvent.finishing 0 2,
      LogEvent.utilizationCalc 2] h
  exact ⟨h, hmain.1, hmain.2.1⟩

/-! ### dynfed: minimum cores (`src/2021_RTCSA_dynfed/src/dynfed.rs:29-45`) -/

/-- Modelled from the spec: the `fixed_priority_scheduler` free function
(§4.3) — run the intra-DAG list scheduler with the ascending-`priority`
key on a fresh homogeneous processor of `c` cores and return
`(total_time, execution_order)`. -/
def fixedPriorityScheduler (fuel tfuel : Nat) (c : Nat) (d : DAGGraph) :
    Option (Int × List Nat) :=
  match listSchedule sortByNodePriority fuel tfuel d (processorNew c) with
  | none => none
  | some (len, eo, _) => some (len, eo)

/-- The `while schedule_result.0 > end_to_end_deadline` loop of
`calculate_minimum_cores_and_execution_order` (`dynfed.rs:38-42`), with
fuel; `none` models divergence. -/
def calcMinLoop (fuel tfuel : Nat) (d : DAGGraph) (dl : Int) :
    Nat → Nat → Option (Nat × List Nat)
  | 0, _ => none
  | cfuel + 1, c =>
    match fixedPriorityScheduler fuel tfuel c d with
    | none => none
    | some (len, eo) =>
      if len > dl then calcMinLoop fuel tfuel d dl cfuel (c + 1)
      else some (c, eo)

/-- `calculate_minimum_cores_and_execution_order` (`dynfed.rs:29-45`):
start from `ceil(volume / deadline)` cores (the `f32` arithmetic is
modelled exactly over ℚ) and increase until the makespan meets the
deadline; the `unwrap` of a missing deadline is modelled as `none`. -/
def calculateMinimumCoresAndExecutionOrder (fuel tfuel cfuel : Nat)
    (d : DAGGraph) : Option (Nat × List Nat) :=
  match d.getEndToEndDeadline with
  | none => none
  | some dl =>
    calcMinLoop fuel tfuel d dl cfuel
      (Int.ceil ((d.getVolume : ℚ) / (dl : ℚ))).toNat

theorem calcMinLoop_spec (fuel tfuel : Nat) (d : DAGGraph) (dl : Int) :
    ∀ (cfuel c : Nat) (c2 : Nat) (eo : List Nat),
    calcMinLoop fuel tfuel d dl cfuel c = some (c2, eo) →
    c ≤ c2 ∧ ∃ len, fixedPriorityScheduler fuel tfuel c2 d = some (len, eo) ∧
      len ≤ dl := by
  intro cfuel
  induction cfuel with
  | zero =>
    intro c c2 eo h
    exact absurd h (by simp [calcMinLoop])
  | succ cfuel ih =>
    intro c c2 eo h
    unfold calcMinLoop at h
    cases hfp : fixedPriorityScheduler fuel tfuel c d with
    | none => rw [hfp] at h; exact absurd h (by simp)
    | some r =>
      obtain ⟨len, eo2⟩ := r
      rw [hfp] at h
      dsimp only at h
      split at h
      · rename_i hgt
        have := ih (c + 1) c2 eo h
        exact ⟨by omega, this.2⟩
      · rename_i hle
        simp only [Option.some.injEq, Prod.mk.injEq] at h
        obtain ⟨h1, h2⟩ := h
        subst h1
        subst h2
        exact ⟨Nat.le_refl c, len, hfp, by omega⟩

/-- Partial correctness of `calculate_minimum_cores_and_execution_order`
(the unproven remainder of C10 is its termination behaviour): any
returned core count is at least `ceil(volume / deadline)` and achieves a
fixed-priority makespan within the deadline, paired with that run's
execution order. -/
theorem dynfed_min_cores_partial (fuel tfuel cfuel : Nat) (d : DAGGraph)
    (c : Nat) (eo : List Nat)
    (h : calculateMinimumCoresAndExecutionOrder fuel tfuel cfuel d =
      some (c, eo)) :
    ∃ dl, d.getEndToEndDeadline = some dl ∧
      (Int.ceil ((d.getVolume : ℚ) / (dl : ℚ))).toNat ≤ c ∧
      ∃ len, fixedPriorityScheduler fuel tfuel c d = some (len, eo) ∧
        len ≤ dl := by
  unfold calculateMinimumCoresAndExecutionOrder at h
  cases hdl : d.getEndToEndDeadline with
  | none => rw [hdl] at h; exact absurd h (by simp)
  | some dl =>
    rw [hdl] at h
    have := calcMinLoop_spec fuel tfuel d dl cfuel _ c eo h
    exact ⟨dl, rfl, this.1, this.2⟩

end SchedSim
